import Mathlib

/-!
Verification of the webspec-index language-server core.

This file shallowly embeds the analysis pipeline of the repository
(`webspec_index/lsp/{matcher,steps,coverage,scanner,server}.py`) in Lean and
proves the specification claims about it.  Text is modelled as `List Char`
(Python `str`), Python `float` as `ℚ` (the claims proved about similarity
scores do not depend on rounding), machine integers as `Nat`/`Int`, and
fallible provider calls as `Except`.  Loops become structural recursions;
where a Python loop advances an index, the recursion carries explicit fuel
that is initialised to an upper bound on the number of iterations.
-/

/-- Python `str` is modelled as a list of characters. -/
abbrev Str := List Char

/-- Python's `\s` character class (ASCII part, which is all the inputs use). -/
def isPySpace (c : Char) : Bool :=
  c == ' ' || c == '\t' || c == '\n' || c == '\r' || c == Char.ofNat 11 || c == Char.ofNat 12

/-- Python `str.lstrip()` restricted to whitespace. -/
def pyStripLeft (s : Str) : Str := s.dropWhile isPySpace

/-- Python `str.rstrip()` restricted to whitespace. -/
def pyStripRight (s : Str) : Str := (s.reverse.dropWhile isPySpace).reverse

/-- Python `str.strip()`. -/
def pyStrip (s : Str) : Str := pyStripRight (pyStripLeft s)

/-! ## matcher.py — normalisation

`strip_markdown` applies four `re.sub` passes in order: inline link, bold,
italic, code.  Each regex is of the shape "opener, a greedy run of characters
excluded from a class, closer"; such a substitution is deterministic: at each
position the engine either matches (emitting the captured group and resuming
after the match) or fails and moves one character right.  The recursions below
implement exactly that, with fuel bounded by the string length (every step
consumes at least one character). -/

/-- One pass of `_MD_LINK_RE.sub(r'\1', text)` for the regex
    `\[([^\]]*)\]\([^)]*\)`. -/
def subLinkGo : Nat → Str → Str
  | 0, cs => cs
  | _ + 1, [] => []
  | f + 1, c :: rest =>
    if c == '[' then
      let t := rest.takeWhile (· != ']')
      match rest.drop t.length with
      | ']' :: '(' :: r2 =>
        let u := r2.takeWhile (· != ')')
        match r2.drop u.length with
        | ')' :: r4 => t ++ subLinkGo f r4
        | _ => c :: subLinkGo f rest
      | _ => c :: subLinkGo f rest
    else c :: subLinkGo f rest

/-- One pass of `_MD_BOLD_RE.sub(r'\1', text)` for the regex
    `\*\*([^*]*)\*\*`. -/
def subBoldGo : Nat → Str → Str
  | 0, cs => cs
  | _ + 1, [] => []
  | f + 1, c :: rest =>
    if c == '*' then
      match rest with
      | '*' :: r1 =>
        let t := r1.takeWhile (· != '*')
        match r1.drop t.length with
        | '*' :: '*' :: r3 => t ++ subBoldGo f r3
        | _ => c :: subBoldGo f rest
      | _ => c :: subBoldGo f rest
    else c :: subBoldGo f rest

/-- One pass for a regex `X([^X]*)X` with a single-character delimiter `X`
    (used for italic `*x*` and code with the backquote delimiter). -/
def subDelimGo (d : Char) : Nat → Str → Str
  | 0, cs => cs
  | _ + 1, [] => []
  | f + 1, c :: rest =>
    if c == d then
      let t := rest.takeWhile (· != d)
      match rest.drop t.length with
      | _ :: r2 => t ++ subDelimGo d f r2
      | _ => c :: subDelimGo d f rest
    else c :: subDelimGo d f rest

/-- `steps.strip_markdown`: strip inline link, bold, italic, code — in that
    order. -/
def strip_markdown (s : Str) : Str :=
  let s1 := subLinkGo s.length s
  let s2 := subBoldGo s1.length s1
  let s3 := subDelimGo '*' s2.length s2
  subDelimGo (Char.ofNat 96) s3.length s3

/-- Collapse every run of whitespace to a single space
    (`_WHITESPACE_RE.sub(' ', text)`).  The boolean argument records whether
    the previous character was whitespace. -/
def collapseWsGo : Bool → Str → Str
  | _, [] => []
  | inRun, c :: rest =>
    if isPySpace c then
      if inRun then collapseWsGo true rest else ' ' :: collapseWsGo true rest
    else c :: collapseWsGo false rest

/-- Trailing-punctuation characters of `_TRAILING_PUNCT_RE` (`[.,:;!?]+$`). -/
def isTrailPunct (c : Char) : Bool :=
  c == '.' || c == ',' || c == ':' || c == ';' || c == '!' || c == '?'

/-- Strip the maximal trailing run of `[.,:;!?]`. -/
def dropTrailPunct (s : Str) : Str := (s.reverse.dropWhile isTrailPunct).reverse

/-- `matcher.normalize_text`: strip markdown, collapse whitespace, strip,
    lowercase (ASCII, as in all inputs considered), strip trailing
    punctuation. -/
def normalize_text (s : Str) : Str :=
  dropTrailPunct (((pyStrip (collapseWsGo false (strip_markdown s)))).map Char.toLower)

/-! ## matcher.py — Jaro–Winkler -/

/-- The matching window of `jaro_winkler`: `max(len1, len2) // 2 - 1`, set to
    `0` when that Python expression is negative (`Int.toNat` clamps). -/
def match_distance (len1 len2 : Nat) : Nat :=
  (((max len1 len2 : Nat) : Int) / 2 - 1).toNat

/-- The inner search of the matching loop: the first index `j` in
    `[start, stop)` with `s2[j]` unmatched and equal to `c`. -/
def findMatchIdx (s2 : Str) (m2 : List Bool) (c : Char) (start stop : Nat) : Option Nat :=
  (List.range' start (stop - start)).find? fun j =>
    !(m2.getD j false) && (s2.getD j c == c)

/-- The double loop of `jaro_winkler` marking matches: returns the two match
    flag arrays and the match count. -/
def jwMatches (s1 s2 : Str) (d : Nat) : List Bool × List Bool × Nat :=
  (List.range s1.length).foldl
    (fun st i =>
      match findMatchIdx s2 st.2.1 (s1.getD i ' ') (i - d) (min (i + d + 1) s2.length) with
      | some j => (st.1.set i true, st.2.1.set j true, st.2.2 + 1)
      | none => st)
    (List.replicate s1.length false, List.replicate s2.length false, 0)

/-- The characters of `s` at the positions flagged in `m`, in order. -/
def matchedChars (s : Str) (m : List Bool) : Str :=
  ((s.zip m).filter (·.2)).map (·.1)

/-- The transposition count of `jaro_winkler`: the number of positions at
    which the two matched-character sequences differ (this is what the
    source's `k`-advancing loop computes). -/
def jwTranspositions (s1 s2 : Str) (m1 m2 : List Bool) : Nat :=
  ((matchedChars s1 m1).zip (matchedChars s2 m2)).countP fun p => !(p.1 == p.2)

/-- The Winkler common-prefix count: leading positions (at most
    `min(4, len1, len2)`) at which the strings agree, stopping at the first
    disagreement. -/
def jwCommonLead (s1 s2 : Str) : Nat :=
  (((s1.zip s2).take 4).takeWhile fun p => p.1 == p.2).length

/-- `matcher.jaro_winkler` over exact rationals; `w` is the
    `prefix_weight` parameter (the source defaults it to `0.1`). -/
def jaro_winkler (s1 s2 : Str) (w : ℚ) : ℚ :=
  if s1 = s2 then 1
  else if s1 = [] ∨ s2 = [] then 0
  else
    let len1 := s1.length
    let len2 := s2.length
    let d := match_distance len1 len2
    let st := jwMatches s1 s2 d
    let m := st.2.2
    if m = 0 then 0
    else
      let t := jwTranspositions s1 s2 st.1 st.2.1
      let jaro : ℚ :=
        ((m : ℚ) / len1 + (m : ℚ) / len2 + ((m : ℚ) - (t : ℚ) / 2) / m) / 3
      jaro + (jwCommonLead s1 s2 : ℚ) * w * (1 - jaro)

/-! ## matcher.py — classification -/

inductive MatchResult where
  | EXACT
  | FUZZY
  | MISMATCH
  | NOT_FOUND
deriving DecidableEq, Repr

/-- Python's substring test `a in b`. -/
def isSubstr : Str → Str → Bool
  | pat, [] => pat.isEmpty
  | pat, c :: rest => pat.isPrefixOf (c :: rest) || isSubstr pat rest

/-- `matcher.classify_match`. -/
def classify_match (comment_text spec_text : Str) (threshold : ℚ) : MatchResult :=
  if pyStrip comment_text = [] then .EXACT
  else
    let nc := normalize_text comment_text
    let ns := normalize_text spec_text
    if nc = [] ∨ ns = [] then (if nc = [] then .EXACT else .MISMATCH)
    else if nc = ns then .EXACT
    else if nc.isPrefixOf ns || ns.isPrefixOf nc then .FUZZY
    else if isSubstr nc ns || isSubstr ns nc then .FUZZY
    else if jaro_winkler nc ns (1/10) ≥ threshold then .FUZZY
    else .MISMATCH

/-! ## Claims C1 and C8 -/

/-- The decision procedure exactly as the specification states it (steps 1,
    3–7 of §4.E): no branch for an empty normalised string. -/
def spec_classify (c s : Str) (threshold : ℚ) : MatchResult :=
  if pyStrip c = [] then .EXACT
  else
    let nc := normalize_text c
    let ns := normalize_text s
    if nc = ns then .EXACT
    else if nc.isPrefixOf ns || ns.isPrefixOf nc || isSubstr nc ns || isSubstr ns nc then .FUZZY
    else if jaro_winkler nc ns (1/10) ≥ threshold then .FUZZY
    else .MISMATCH

/-- The specification's decision procedure amended minimally to match the
    code: when the normalised comment is empty the result is EXACT, and
    otherwise when the normalised spec text is empty the result is MISMATCH,
    before the equality/prefix/substring/similarity chain. -/
def spec_classify_amended (c s : Str) (threshold : ℚ) : MatchResult :=
  if pyStrip c = [] then .EXACT
  else
    let nc := normalize_text c
    let ns := normalize_text s
    if nc = [] then .EXACT
    else if ns = [] then .MISMATCH
    else if nc = ns then .EXACT
    else if nc.isPrefixOf ns || ns.isPrefixOf nc then .FUZZY
    else if isSubstr nc ns || isSubstr ns nc then .FUZZY
    else if jaro_winkler nc ns (1/10) ≥ threshold then .FUZZY
    else .MISMATCH


/-! ## steps.py — algorithm step trees -/

/-- A node of the parsed algorithm-step tree (`steps.AlgorithmStep`). -/
inductive AlgorithmStep where
  | mk (number : List Nat) (text : Str) (children : List AlgorithmStep)
deriving Repr

def AlgorithmStep.number : AlgorithmStep → List Nat
  | .mk n _ _ => n

def AlgorithmStep.text : AlgorithmStep → Str
  | .mk _ t _ => t

def AlgorithmStep.children : AlgorithmStep → List AlgorithmStep
  | .mk _ _ c => c

/-- A tree node before numbers are assigned (the Python code creates
    `AlgorithmStep(number=[], ...)` and fills `number` later; we keep the
    unnumbered phase as its own type). -/
inductive PreStep where
  | mk (text : Str) (children : List PreStep)
deriving Repr

/-- The numeric value of a digit string. -/
def digitsVal (ds : Str) : Nat := ds.foldl (fun a c => a * 10 + (c.toNat - 48)) 0

/-- Python `content.split(sep)` for a single-character separator. -/
def splitNl : Str → List Str
  | [] => [[]]
  | c :: rest =>
    if c == '\n' then [] :: splitNl rest
    else
      match splitNl rest with
      | [] => [[c]]
      | h :: t => (c :: h) :: t

/-- `steps._parse_step_line`: match `^( *)\d+\.\s`, returning
    `(indent_level, step_num, text)` — the leading-space count divided by 4,
    the integer value of the digits, and the stripped text after the dot. -/
def parse_step_line (line : Str) : Option (Nat × Nat × Str) :=
  let spaces := (line.takeWhile (· == ' ')).length
  let rest := line.drop spaces
  let digits := rest.takeWhile (·.isDigit)
  if digits.isEmpty then none
  else
    match rest.drop digits.length with
    | '.' :: c :: _ =>
      if isPySpace c then
        some (spaces / 4, digitsVal digits, pyStrip (rest.drop (digits.length + 1)))
      else none
    | _ => none

/-- The continuation loop of `parse_steps` (source lines 74–92): starting at
    line `j`, skip blank lines, stop at step lines, and append
    deeper-indented non-note lines to `text`.  Returns the resume index and
    the accumulated text; `stepIndent4` is `indent * 4`. -/
def collectIndentCont : Nat → List Str → Nat → Nat → Str → Nat × Str
  | 0, _, j, _, text => (j, text)
  | f + 1, lines, j, stepIndent4, text =>
    if h : j < lines.length then
      let nl := lines.get ⟨j, h⟩
      if (pyStrip nl).isEmpty then collectIndentCont f lines (j + 1) stepIndent4 text
      else if (parse_step_line nl).isSome then (j, text)
      else
        let stripped := pyStripLeft nl
        let nextIndent := nl.length - stripped.length
        if nextIndent > stepIndent4 && !(stripped.head? == some '>')
            && !(stripped.head? == some '*') then
          collectIndentCont f lines (j + 1) stepIndent4 (text ++ ' ' :: stripped)
        else (j, text)
    else (j, text)

/-- The outer scan of `parse_steps` collecting `(indent, num, text)` raw
    steps in order. -/
def collectRaw : Nat → List Str → Nat → List (Nat × Nat × Str) → List (Nat × Nat × Str)
  | 0, _, _, acc => acc
  | f + 1, lines, i, acc =>
    if h : i < lines.length then
      match parse_step_line (lines.get ⟨i, h⟩) with
      | some (indent, _num, text) =>
        let r := collectIndentCont (lines.length + 1) lines (i + 1) (indent * 4) text
        collectRaw f lines r.1 (acc ++ [(indent, _num, r.2)])
      | none => collectRaw f lines (i + 1) acc
    else acc

/-- Replace the children of the last node of a sibling list.  The Python
    builder appends each new step (with children `[]`) to the list held in
    the top stack frame and pushes a frame aliasing the step's `children`
    list; all mutation of that list happens through the alias while the frame
    is on the stack, so attaching the frame's final contents to the last
    sibling below at pop time is the pure-functional equivalent. -/
def setLastChildren : List PreStep → List PreStep → List PreStep
  | [], _ => []
  | [PreStep.mk t _], c => [PreStep.mk t c]
  | s :: rest, c => s :: setLastChildren rest c

/-- The `while len(stack) > 1 and stack[-1][0] >= indent: stack.pop()` loop,
    with the aliased mutation realised by `setLastChildren`.  The head of the
    list is the top of the stack; the bottom frame has indent `-1`. -/
def popFrames : Nat → Int → List (Int × List PreStep) → List (Int × List PreStep)
  | 0, _, st => st
  | f + 1, indent, (i1, s1) :: (i2, s2) :: rest =>
    if i1 ≥ indent then popFrames f indent ((i2, setLastChildren s2 s1) :: rest)
    else (i1, s1) :: (i2, s2) :: rest
  | _ + 1, _, st => st

/-- Process one raw step: pop frames, append the new node to the top frame's
    siblings, push a frame for its children. -/
def pushStep (indent : Int) (text : Str) (stack : List (Int × List PreStep)) :
    List (Int × List PreStep) :=
  match popFrames stack.length indent stack with
  | (i0, s0) :: rest => (indent, []) :: (i0, s0 ++ [PreStep.mk text []]) :: rest
  | [] => []

/-- Fold the raw steps through the stack builder, starting from the root
    frame `(-1, [])`; each node's text is markdown-stripped on creation
    (source line `plain_text = strip_markdown(text)`). -/
def buildStack (raws : List (Nat × Nat × Str)) : List (Int × List PreStep) :=
  raws.foldl (fun st r => pushStep (r.1 : Int) (strip_markdown r.2.2) st) [((-1 : Int), [])]

/-- Pop every remaining frame (attaching children) and return the root
    sibling list. -/
def finalizeStack : Nat → List (Int × List PreStep) → List PreStep
  | 0, st =>
    match st with
    | (_, s) :: _ => s
    | [] => []
  | f + 1, st =>
    match st with
    | [(_, s)] => s
    | (_, s1) :: (i2, s2) :: rest => finalizeStack f ((i2, setLastChildren s2 s1) :: rest)
    | [] => []

/-- `steps._assign_numbers`: number each node positionally,
    `node.number = parent.number ++ [1-based sibling index]`; `k` is the
    index of the first node of `steps`. -/
def assign_numbers (pre : List Nat) : List PreStep → Nat → List AlgorithmStep
  | [], _ => []
  | PreStep.mk t c :: rest, k =>
    AlgorithmStep.mk (pre ++ [k]) t (assign_numbers (pre ++ [k]) c 1) ::
      assign_numbers pre rest (k + 1)

/-- `steps.parse_steps`: split into lines, collect raw steps with their
    indents, build the sibling structure with the frame stack, then assign
    hierarchical numbers by position. -/
def parse_steps (content : Str) : List AlgorithmStep :=
  let lines := splitNl content
  let raws := collectRaw (lines.length + 1) lines 0 []
  let stack := buildStack raws
  assign_numbers [] (finalizeStack stack.length stack) 1

/-- The loop of `steps.find_step`: descend by 1-based indices, returning
    `none` as soon as an index is out of range (`n < 1 or n > len(current)`),
    and the last visited node at the end.  The guard makes the index safe, so
    `getD` never uses its default. -/
def findLoop : List AlgorithmStep → List Nat → Option AlgorithmStep → Option AlgorithmStep
  | _, [], target => target
  | cur, n :: rest, _ =>
    if n < 1 ∨ cur.length < n then none
    else
      let s := cur.getD (n - 1) (AlgorithmStep.mk [] [] [])
      findLoop s.children rest (some s)

/-- `steps.find_step`. -/
def find_step (steps : List AlgorithmStep) (number : List Nat) : Option AlgorithmStep :=
  if number.isEmpty then none else findLoop steps number none

/-- `steps.flatten_steps`: depth-first pre-order flattening. -/
def flatten_steps : List AlgorithmStep → List AlgorithmStep
  | [] => []
  | AlgorithmStep.mk n t c :: rest =>
    AlgorithmStep.mk n t c :: (flatten_steps c ++ flatten_steps rest)

/-- Positional numbering, as the specification states it: in a forest whose
    siblings are numbered from `k` under parent number `p`, the `i`-th
    sibling (1-based from `k`) carries number `p ++ [k + i - 1]` and its
    children are numbered from 1 under it. -/
inductive WellNumbered : List Nat → Nat → List AlgorithmStep → Prop where
  | nil (p : List Nat) (k : Nat) : WellNumbered p k []
  | cons (p : List Nat) (k : Nat) (t : Str) (c rest : List AlgorithmStep)
      (hc : WellNumbered (p ++ [k]) 1 c) (hrest : WellNumbered p (k + 1) rest) :
      WellNumbered p k (AlgorithmStep.mk (p ++ [k]) t c :: rest)

/-- The sibling list reached after descending a path of 1-based indices
    (used to phrase "the number of children at its level"). -/
def descend (steps : List AlgorithmStep) : List Nat → Option (List AlgorithmStep)
  | [] => some steps
  | n :: rest =>
    if n < 1 ∨ steps.length < n then none
    else descend ((steps.getD (n - 1) (AlgorithmStep.mk [] [] [])).children) rest


/-! ## coverage.py — data model and coverage computation -/

/-- `scanner.StepComment`. -/
structure StepComment where
  line : Nat
  col_start : Nat
  col_end : Nat
  number : List Nat
  text : Str
  end_line : Option Nat
deriving DecidableEq, Repr

/-- `scanner.UrlMatch`. -/
structure UrlMatch where
  line : Nat
  col_start : Nat
  col_end : Nat
  spec : Str
  anchor : Str
  url : Str
deriving DecidableEq, Repr

/-- `server.StepValidation`. -/
structure StepValidation where
  step : StepComment
  result : MatchResult
  spec_text : Str
  algo_name : Str
deriving DecidableEq, Repr

/-- `coverage.CoverageResult` (the computed fields; `summary()` is display
    only). -/
structure CoverageResult where
  anchor : Str
  total_steps : Nat
  implemented : List (List Nat)
  missing : List (List Nat)
  warnings : Nat
  reordered : Nat
deriving DecidableEq, Repr

/-- `bisect.bisect_left(tails, val)`: on the sorted lists the algorithm
    maintains, the leftmost insertion point is the length of the prefix of
    elements strictly below `val`. -/
def bisect_left (tails : List Nat) (v : Nat) : Nat :=
  (tails.takeWhile (· < v)).length

/-- One iteration of the patience-sorting loop of
    `coverage._longest_increasing_subsequence_length`. -/
def patienceStep (tails : List Nat) (v : Nat) : List Nat :=
  let pos := bisect_left tails v
  if pos = tails.length then tails ++ [v] else tails.set pos v

/-- `coverage._longest_increasing_subsequence_length` (the empty-sequence
    early return coincides with folding from `[]`). -/
def longest_increasing_subsequence_length (seq : List Nat) : Nat :=
  (seq.foldl patienceStep []).length

/-- The length of a longest strictly increasing subsequence, stated directly
    from the specification's words: the maximum length over sublists that
    are strictly increasing chains. -/
def lis_spec (seq : List Nat) : Nat :=
  ((seq.sublists.filter fun l => decide (List.Chain' (· < ·) l)).map List.length).foldr max 0

/-- The `step_to_idx` dictionary of `compute_coverage` as an association
    list; later `dict[key] = i` writes overwrite earlier ones, so the list is
    reversed to make `lookup` (which returns the first hit) see the last
    write. -/
def step_to_idx (flat : List AlgorithmStep) : List (List Nat × Nat) :=
  (flat.enum.map fun p => (p.2.number, p.1)).reverse

/-- The loop state of `compute_coverage`: `implemented` (in insertion
    order), the membership set (kept as a list, updated in lockstep),
    `spec_order_indices`, and the warning count. -/
structure CovState where
  implemented : List (List Nat)
  implemented_set : List (List Nat)
  positions : List Nat
  warnings : Nat
deriving DecidableEq, Repr

/-- The shared EXACT/FUZZY/MISMATCH branch body: add an unseen step number
    to `implemented` and, when the number occurs in the spec, append its
    flat index to `positions`. -/
def covAdd (idx : List (List Nat × Nat)) (st : CovState) (key : List Nat) : CovState :=
  if key ∈ st.implemented_set then st
  else
    CovState.mk (st.implemented ++ [key]) (st.implemented_set ++ [key])
      (st.positions ++ (match idx.lookup key with
        | some i => [i]
        | none => []))
      st.warnings

/-- One iteration of the validation loop of `compute_coverage`. -/
def covStep (idx : List (List Nat × Nat)) (st : CovState) (v : StepValidation) : CovState :=
  match v.result with
  | .EXACT => covAdd idx st v.step.number
  | .FUZZY => covAdd idx st v.step.number
  | .MISMATCH =>
    let st' := covAdd idx st v.step.number
    CovState.mk st'.implemented st'.implemented_set st'.positions (st'.warnings + 1)
  | .NOT_FOUND =>
    CovState.mk st.implemented st.implemented_set st.positions (st.warnings + 1)

/-- The validation loop of `compute_coverage`. -/
def covFold (idx : List (List Nat × Nat)) (validations : List StepValidation) : CovState :=
  validations.foldl (covStep idx) (CovState.mk [] [] [] 0)

/-- `coverage.compute_coverage`. -/
def compute_coverage (validations : List StepValidation) (algo_steps : List AlgorithmStep)
    (anchor : Str) : CoverageResult :=
  let flat := flatten_steps algo_steps
  let idx := step_to_idx flat
  let st := covFold idx validations
  let missing := (flat.filter fun s => !(decide (s.number ∈ st.implemented_set))).map
    AlgorithmStep.number
  CoverageResult.mk anchor flat.length st.implemented missing st.warnings
    (st.positions.length - longest_increasing_subsequence_length st.positions)


/-! ## scanner.py — the step-comment regular expressions

`STEP_PATTERN` is searched on each physical line.  Backtracking analysis:
after a comment opener, the pattern requires (an optional `[Ss]tep\s+`
prefix and) a digit; shrinking a greedy run (`;+`, `/\*+`, `\s*`, `\s+`)
re-positions the cursor on a `;`, `*` or whitespace character, which is
neither `[Ss]` nor a digit, so only the maximal runs can succeed and the
opener alternative is determined by the first one or two characters.  The
tail `\s*(.*?)\s*(?:\*/)?$` always matches: the greedy `\s*` takes the
maximal whitespace run and the lazy group takes the shortest prefix of the
remainder whose complement is whitespace optionally followed by a final
`*/` — i.e. the remainder right-stripped, minus a final `*/` if one ends
the line.  The match therefore always extends to the end of the line
(`m.end()` is the line length). -/

/-- The matched groups of `STEP_PATTERN` at a search hit: the match start,
    whether group 1 (`[Ss]tep\s+`) appeared, the dotted number's parts
    (group 2), whether group 3 (the trailing dot) appeared, and the text
    (group 4). -/
structure StepMatchR where
  start : Nat
  hasPfx : Bool
  parts : List Nat
  hasDot : Bool
  text : Str
deriving DecidableEq, Repr

/-- The lazy-group tail `(.*?)\s*(?:\*/)?$`: right-strip whitespace after
    removing a final `*/` if the remainder ends with one. -/
def tailText (r : Str) : Str :=
  match r.reverse with
  | '/' :: '*' :: rest => pyStripRight rest.reverse
  | _ => pyStripRight r

/-- The opener alternation `//|#|;+|/\*+|\*` of `STEP_PATTERN`: number of
    characters consumed at the head, or `none`. -/
def openerLen (cs : Str) : Option Nat :=
  match cs with
  | '/' :: '/' :: _ => some 2
  | '#' :: _ => some 1
  | ';' :: rest => some (1 + (rest.takeWhile (· == ';')).length)
  | '/' :: '*' :: rest => some (2 + (rest.takeWhile (· == '*')).length)
  | '*' :: _ => some 1
  | _ => none

/-- `\d{1,3}` (greedy, capped at three digits): the part value and the
    remainder, or `none` if no digit is present. -/
def takeDigits1to3 (cs : Str) : Option (Nat × Str) :=
  let run := cs.takeWhile (·.isDigit)
  if run.isEmpty then none
  else
    let part := run.take 3
    some (digitsVal part, cs.drop part.length)

/-- The greedy iteration `(?:\.\d{1,3})*`: consume `.ddd` groups while a
    dot followed by a digit is ahead.  Accumulates parts in reverse. -/
def numTailLoop : Nat → Str → List Nat → List Nat × Str
  | 0, cs, acc => (acc.reverse, cs)
  | f + 1, cs, acc =>
    match cs with
    | '.' :: c :: rest =>
      if c.isDigit then
        let run := (c :: rest).takeWhile (·.isDigit)
        let part := run.take 3
        numTailLoop f ((c :: rest).drop part.length) (digitsVal part :: acc)
      else (acc.reverse, cs)
    | _ => (acc.reverse, cs)

/-- Group 2 of `STEP_PATTERN`: the dotted number's parts and the remainder. -/
def parseNumParts (cs : Str) : Option (List Nat × Str) :=
  match takeDigits1to3 cs with
  | none => none
  | some (p1, rest) => some (numTailLoop rest.length rest [p1])

/-- The optional group `([Ss]tep\s+)?`, present only when it is followed by
    a digit (otherwise the group backtracks to absent and the digit check
    happens at the original position). -/
def tryStepPfx (r1 : Str) : Bool × Str :=
  match r1 with
  | c :: 't' :: 'e' :: 'p' :: rest =>
    if c == 'S' || c == 's' then
      let ws := rest.takeWhile isPySpace
      let r2 := rest.drop ws.length
      if !ws.isEmpty && (match r2 with
        | d :: _ => d.isDigit
        | [] => false) then
        (true, r2)
      else (false, r1)
    else (false, r1)
  | _ => (false, r1)

/-- One attempt of `STEP_PATTERN` at the suffix `cs` (absolute position
    `p`). -/
def stepMatchAtCs (cs : Str) (p : Nat) : Option StepMatchR :=
  match openerLen cs with
  | none => none
  | some k =>
    let r1 := (cs.drop k).dropWhile isPySpace
    let pr := tryStepPfx r1
    match parseNumParts pr.2 with
    | none => none
    | some (parts, r3) =>
      let dotRes : Bool × Str :=
        match r3 with
        | '.' :: rest => (true, rest)
        | _ => (false, r3)
      some (StepMatchR.mk p pr.1 parts dotRes.1
        (tailText (dotRes.2.dropWhile isPySpace)))

/-- `re.search` over positions left to right. -/
def searchStep : Str → Nat → Option StepMatchR
  | [], _ => none
  | c :: rest, p =>
    match stepMatchAtCs (c :: rest) p with
    | some m => some m
    | none => searchStep rest (p + 1)

/-- `STEP_PATTERN.search(line)`. -/
def stepMatchSearch (line : Str) : Option StepMatchR := searchStep line 0

/-- The opener alternation `//|#|;+|\*` of `_CONTINUATION_RE` (no `/*`
    form). -/
def contOpenerLen (cs : Str) : Option Nat :=
  match cs with
  | '/' :: '/' :: _ => some 2
  | '#' :: _ => some 1
  | ';' :: rest => some (1 + (rest.takeWhile (· == ';')).length)
  | '*' :: _ => some 1
  | _ => none

/-- `_CONTINUATION_RE.match(line)`: anchored leading whitespace, a comment
    opener, whitespace, then the same lazy tail; returns group 1.  A
    successful match always ends at the line end (`cont.end()` is the line
    length). -/
def contMatch (line : Str) : Option Str :=
  let r0 := line.dropWhile isPySpace
  match contOpenerLen r0 with
  | none => none
  | some k => some (tailText ((r0.drop k).dropWhile isPySpace))

/-- Python `str.splitlines()` restricted to the `\n`, `\r\n` and `\r`
    terminators (the inputs considered contain no other line breaks): split
    at terminators, with no trailing empty line. -/
def splitLinesGo : Nat → Str → Str → List Str
  | 0, rest, acc => [acc.reverse ++ rest]
  | _ + 1, [], acc => [acc.reverse]
  | f + 1, c :: rest, acc =>
    if c == '\n' then
      acc.reverse :: (if rest.isEmpty then [] else splitLinesGo f rest [])
    else if c == '\r' then
      match rest with
      | '\n' :: rest2 =>
        acc.reverse :: (if rest2.isEmpty then [] else splitLinesGo f rest2 [])
      | _ => acc.reverse :: (if rest.isEmpty then [] else splitLinesGo f rest [])
    else splitLinesGo f rest (c :: acc)

def pySplitLines (s : Str) : List Str :=
  if s.isEmpty then [] else splitLinesGo (s.length + 1) s []

/-- The continuation loop of `scan_steps` (source lines 129–140): from line
    `j`, while the line is not itself a step-pattern hit and is a
    continuation match with non-empty group 1, append the group with a
    single space, update `col_end` to the line's end, and advance.  Returns
    the resume index, the accumulated text and the final `col_end`. -/
def collectCont : Nat → List Str → Nat → Str → Nat → Nat × Str × Nat
  | 0, _, j, text, colEnd => (j, text, colEnd)
  | f + 1, lines, j, text, colEnd =>
    if h : j < lines.length then
      let lj := lines.get ⟨j, h⟩
      if (stepMatchSearch lj).isSome then (j, text, colEnd)
      else
        match contMatch lj with
        | some ct =>
          if ct.isEmpty then (j, text, colEnd)
          else collectCont f lines (j + 1) (text ++ ' ' :: ct) lj.length
        | none => (j, text, colEnd)
    else (j, text, colEnd)

/-- The line loop of `scan_steps`; fuel is one more than the line count
    (`i` strictly increases each round). -/
def scanStepsGo : Nat → List Str → Nat → List StepComment
  | 0, _, _ => []
  | f + 1, lines, i =>
    if h : i < lines.length then
      let li := lines.get ⟨i, h⟩
      match stepMatchSearch li with
      | some m =>
        if m.hasPfx || m.hasDot || m.parts.length > 1 then
          let r := collectCont (lines.length + 1) lines (i + 1) m.text li.length
          StepComment.mk i m.start r.2.2 m.parts r.2.1
            (if i + 1 < r.1 then some (r.1 - 1) else none) :: scanStepsGo f lines r.1
        else scanStepsGo f lines (i + 1)
      | none => scanStepsGo f lines (i + 1)
    else []

/-- `scanner.scan_steps`. -/
def scan_steps (text : Str) : List StepComment :=
  let lines := pySplitLines text
  scanStepsGo (lines.length + 1) lines 0

/-! ## scanner.py — scope building -/

/-- Insert after every element with key at most the new key: the stable
    ascending insertion that models Python's stable `sorted(key=...)`. -/
def insertByLine {α : Type} (key : α → Nat) (a : α) : List α → List α
  | [] => [a]
  | b :: rest => if key b ≤ key a then b :: insertByLine key a rest else a :: b :: rest

/-- Python `sorted(l, key=...)` (stable). -/
def pySortByKey {α : Type} (key : α → Nat) (l : List α) : List α :=
  l.foldl (fun acc x => insertByLine key x acc) []

/-- The `best_scope` loop of `build_scopes`: the last index whose URL line
    is at most the step's line, stopping at the first greater one. -/
def bestGo : List (UrlMatch × List StepComment) → Nat → Nat → Option Nat → Option Nat
  | [], _, _, best => best
  | (u, _) :: rest, sLine, i, best =>
    if u.line ≤ sLine then bestGo rest sLine (i + 1) (some i) else best

/-- `scopes[best_scope][1].append(step)`. -/
def appendAt : List (UrlMatch × List StepComment) → Nat → StepComment →
    List (UrlMatch × List StepComment)
  | [], _, _ => []
  | (u, ss) :: rest, 0, s => (u, ss ++ [s]) :: rest
  | p :: rest, n + 1, s => p :: appendAt rest n s

/-- `scanner.build_scopes`. -/
def build_scopes (url_matches : List UrlMatch) (step_comments : List StepComment) :
    List (UrlMatch × List StepComment) :=
  if url_matches.isEmpty then []
  else
    let sorted_urls := pySortByKey (fun u => u.line) url_matches
    let sorted_steps := pySortByKey (fun s => s.line) step_comments
    let scopes0 := sorted_urls.map fun u => (u, ([] : List StepComment))
    sorted_steps.foldl
      (fun scopes s =>
        match bestGo scopes s.line 0 none with
        | some i => appendAt scopes i s
        | none => scopes)
      scopes0

/-! ## server.py — provider queries and per-scope validation -/

/-- The provider record (`{content}` is the only field the validation
    pipeline reads). -/
structure SpecRecord where
  content : Str
deriving DecidableEq, Repr

/-- `SpecLensServer._query_spec`: consult the query cache, else call the
    provider, catching any raised error and returning nothing.  The
    provider is modelled as a function into `Except`; the `Option` result
    type is the catch — no error value escapes. -/
def querySpec (cache : List (Str × SpecRecord)) (prov : Str → Except Unit SpecRecord)
    (spec anchor : Str) : Option SpecRecord :=
  let key := spec ++ '#' :: anchor
  match cache.lookup key with
  | some r => some r
  | none =>
    match prov key with
    | .ok r => some r
    | .error _ => none

/-- The per-step body of `_validate_doc`'s inner loop. -/
def validate_one (threshold : ℚ) (anchor : Str) (algo_steps : List AlgorithmStep)
    (c : StepComment) : StepValidation :=
  match find_step algo_steps c.number with
  | none => StepValidation.mk c .NOT_FOUND [] anchor
  | some sp => StepValidation.mk c (classify_match c.text sp.text threshold) sp.text anchor

/-- The per-scope body of `_validate_doc` (source lines 133–168): skip
    empty scopes, failed queries, empty content and empty parses; otherwise
    validate each step comment in the scope.  The algorithm-steps cache of
    `_get_algo_steps` is a read-only parameter. -/
def validateScope (prov : Str → Except Unit SpecRecord) (cache : List (Str × SpecRecord))
    (algoCache : List (Str × List AlgorithmStep)) (threshold : ℚ)
    (scope : UrlMatch × List StepComment) : List StepValidation :=
  if scope.2.isEmpty then []
  else
    match querySpec cache prov scope.1.spec scope.1.anchor with
    | none => []
    | some r =>
      if r.content.isEmpty then []
      else
        let algo_steps :=
          match algoCache.lookup scope.1.anchor with
          | some st => st
          | none => parse_steps r.content
        if algo_steps.isEmpty then []
        else scope.2.map (validate_one threshold scope.1.anchor algo_steps)

/-- The scope loop of `_validate_doc`. -/
def validate_scopes (prov : Str → Except Unit SpecRecord) (cache : List (Str × SpecRecord))
    (algoCache : List (Str × List AlgorithmStep)) (threshold : ℚ)
    (scopes : List (UrlMatch × List StepComment)) : List StepValidation :=
  scopes.flatMap (validateScope prov cache algoCache threshold)


/-- The texts consumed by the continuation loop between lines `j`
    (inclusive) and `j2` (exclusive), each preceded by the single-space
    separator. -/
def joinConts (lines : List Str) (j j2 : Nat) : Str :=
  (List.range' j (j2 - j)).flatMap fun k => ' ' :: (contMatch (lines.getD k [])).getD []

/-! # Theorems -/

/-- Helper: `takeWhile` never lengthens a list. -/
theorem takeWhile_len_le (p : α → Bool) (l : List α) : (l.takeWhile p).length ≤ l.length := by
  induction l with
  | nil => simp [List.takeWhile]
  | cons a l ih =>
    by_cases h : p a = true
    · simpa [List.takeWhile, h] using Nat.succ_le_succ ih
    · simp [List.takeWhile, h]

/-- C1 (counterexample): the claim's decision procedure disagrees with
    `classify_match` on the comment text "." against spec text "a": the
    comment normalises to the empty string, which the claimed procedure sends
    through the prefix rule to FUZZY, while the code returns EXACT. -/
theorem C1_classify_counterexample :
    classify_match ['.'] ['a'] (17/20) = .EXACT ∧
    spec_classify ['.'] ['a'] (17/20) = .FUZZY := by
  constructor <;> decide

/-- C1 (amended): `classify_match` implements the spec's decision procedure
    amended with the empty-normalisation branch: empty/whitespace comment →
    EXACT; else, with nc = normalize(c), ns = normalize(s): nc empty → EXACT;
    ns empty → MISMATCH; nc = ns → EXACT; prefix either way → FUZZY;
    substring either way → FUZZY; jaro_winkler ≥ threshold → FUZZY;
    otherwise MISMATCH. -/
theorem C1_classify_match_eq_amended_spec :
    ∀ (c s : Str) (t : ℚ), classify_match c s t = spec_classify_amended c s t := by
  intro c s t
  simp only [classify_match, spec_classify_amended]
  by_cases h0 : pyStrip c = []
  · simp [h0]
  · by_cases h1 : normalize_text c = []
    · simp [h0, h1]
    · by_cases h2 : normalize_text s = []
      · simp [h0, h1, h2]
      · simp [h0, h1, h2]

/-- C8: the Jaro–Winkler contracts: `jw(x,x) = 1` (hence `jw("","") = 1`),
    `jw("", y) = 0` for non-empty `y`, the matching window is
    `max(|a|,|b|) / 2 - 1` clamped at zero, and the Winkler boost counts at
    most 4 common leading characters. -/
theorem C8_jaro_winkler_contracts :
    (∀ (x : Str) (w : ℚ), jaro_winkler x x w = 1) ∧
    (∀ w : ℚ, jaro_winkler [] [] w = 1) ∧
    (∀ (y : Str) (w : ℚ), y ≠ [] → jaro_winkler [] y w = 0) ∧
    (∀ len1 len2 : Nat,
      (match_distance len1 len2 : Int) = max (((max len1 len2 : Nat) : Int) / 2 - 1) 0) ∧
    (∀ s1 s2 : Str, jwCommonLead s1 s2 ≤ 4) := by
  refine ⟨?_, ?_, ?_, ?_, ?_⟩
  · intro x w; simp [jaro_winkler]
  · intro w; simp [jaro_winkler]
  · intro y w h
    have h' : ([] : Str) ≠ y := fun hh => h hh.symm
    simp [jaro_winkler, h']
  · intro len1 len2
    rw [match_distance, Int.ofNat_toNat]
  · intro s1 s2
    calc jwCommonLead s1 s2 ≤ ((s1.zip s2).take 4).length := takeWhile_len_le _ _
    _ ≤ 4 := by simp

/-- Witness for C8 at a concrete non-empty `y`. -/
theorem C8_jaro_winkler_contracts_witness :
    (['a'] : Str) ≠ [] ∧ jaro_winkler [] ['a'] (1/10) = 0 :=
  ⟨by decide, C8_jaro_winkler_contracts.2.2.1 ['a'] (1/10) (by decide)⟩

/-! ## Claims C3 and C10 — tree lemmas -/

/-- Helper: cancellation of a shared front segment before a cons. -/
theorem append_cons_inj (p : List Nat) (a b : Nat) (s t : List Nat)
    (h : p ++ a :: s = p ++ b :: t) : a = b ∧ s = t := by
  induction p with
  | nil => simpa using h
  | cons x p ih => exact ih (by simpa using h)

/-- Helper: `assign_numbers` produces a positionally numbered forest. -/
theorem assign_numbers_wn (N : Nat) :
    ∀ (f : List PreStep), sizeOf f ≤ N → ∀ (p : List Nat) (k : Nat),
      WellNumbered p k (assign_numbers p f k) := by
  induction N with
  | zero =>
    intro f hf
    exact absurd hf (by cases f <;> simp)
  | succ n ih =>
    intro f hf p k
    match f with
    | [] =>
      simp only [assign_numbers]
      exact WellNumbered.nil p k
    | PreStep.mk t c :: rest =>
      have hsz : sizeOf c ≤ n ∧ sizeOf rest ≤ n := by
        simp at hf; omega
      simp only [assign_numbers]
      exact WellNumbered.cons p k t _ _ (ih c hsz.1 (p ++ [k]) 1) (ih rest hsz.2 p (k + 1))

/-- Helper: in a forest numbered from `k` under parent number `p`, every
    flattened node's number extends `p` by a head that is at least `k`. -/
theorem flatten_number_shape (N : Nat) :
    ∀ (steps : List AlgorithmStep), sizeOf steps ≤ N →
      ∀ p k, WellNumbered p k steps →
        ∀ x ∈ flatten_steps steps, ∃ j t, k ≤ j ∧ x.number = p ++ j :: t := by
  induction N with
  | zero =>
    intro steps h
    exact absurd h (by cases steps <;> simp)
  | succ n ih =>
    intro steps hsz p k hwn x hx
    cases hwn with
    | nil => simp [flatten_steps] at hx
    | cons _ _ tx c rest hc hrest =>
      have hb : sizeOf c ≤ n ∧ sizeOf rest ≤ n := by
        simp at hsz; omega
      simp only [flatten_steps, List.mem_cons, List.mem_append] at hx
      rcases hx with h1 | h2 | h3
      · exact ⟨k, [], le_refl k, by simp [h1, AlgorithmStep.number]⟩
      · obtain ⟨j, t, _, hnum⟩ := ih c hb.1 (p ++ [k]) 1 hc x h2
        exact ⟨k, j :: t, le_refl k, by simp [hnum]⟩
      · obtain ⟨j, t, hj, hnum⟩ := ih rest hb.2 p (k + 1) hrest x h3
        exact ⟨j, t, by omega, hnum⟩

/-- Helper: the flattened numbers of a positionally numbered forest are
    pairwise distinct. -/
theorem flatten_numbers_nodup (N : Nat) :
    ∀ (steps : List AlgorithmStep), sizeOf steps ≤ N →
      ∀ p k, WellNumbered p k steps →
        ((flatten_steps steps).map AlgorithmStep.number).Nodup := by
  induction N with
  | zero =>
    intro steps h
    exact absurd h (by cases steps <;> simp)
  | succ n ih =>
    intro steps hsz p k hwn
    cases hwn with
    | nil => simp [flatten_steps]
    | cons _ _ tx c rest hc hrest =>
      have hb : sizeOf c ≤ n ∧ sizeOf rest ≤ n := by
        simp at hsz; omega
      simp only [flatten_steps, List.map_cons, List.map_append, List.nodup_cons,
        List.mem_append, List.nodup_append, AlgorithmStep.number]
      refine ⟨?_, ih c hb.1 (p ++ [k]) 1 hc, ih rest hb.2 p (k + 1) hrest, ?_⟩
      · rintro (hin | hin)
        · rcases List.mem_map.1 hin with ⟨y, hy, hnum⟩
          obtain ⟨j, t, _, hshape⟩ := flatten_number_shape (sizeOf c) c le_rfl
            (p ++ [k]) 1 hc y hy
          rw [hshape] at hnum
          have hlen := congrArg List.length hnum
          simp only [List.length_append, List.length_cons] at hlen
          omega
        · rcases List.mem_map.1 hin with ⟨y, hy, hnum⟩
          obtain ⟨j, t, hj, hshape⟩ := flatten_number_shape (sizeOf rest) rest le_rfl
            p (k + 1) hrest y hy
          rw [hshape] at hnum
          have := (append_cons_inj p j k t [] hnum).1
          omega
      · intro a ha hb'
        rcases List.mem_map.1 ha with ⟨y, hy, hya⟩
        rcases List.mem_map.1 hb' with ⟨z, hz, hza⟩
        obtain ⟨j1, t1, _, hs1⟩ := flatten_number_shape (sizeOf c) c le_rfl
          (p ++ [k]) 1 hc y hy
        obtain ⟨j2, t2, hj2, hs2⟩ := flatten_number_shape (sizeOf rest) rest le_rfl
          p (k + 1) hrest z hz
        have heq : (p ++ [k]) ++ j1 :: t1 = p ++ j2 :: t2 := by
          rw [← hs1, ← hs2, hya, hza]
        rw [List.append_assoc] at heq
        have hkj := (append_cons_inj p k j2 (j1 :: t1) t2 (by simpa using heq)).1
        omega

/-- C3: for every markdown content string, the tree returned by
    `parse_steps` is positionally numbered — each node's number is its
    parent's number with its 1-based sibling index appended (`WellNumbered
    [] 1`), and the number paths in `flatten_steps` are pairwise distinct. -/
theorem C3_parse_steps_positional_numbering (content : Str) :
    WellNumbered [] 1 (parse_steps content) ∧
    ((flatten_steps (parse_steps content)).map AlgorithmStep.number).Nodup := by
  have hwn : WellNumbered [] 1 (parse_steps content) := by
    unfold parse_steps
    exact assign_numbers_wn _ _ le_rfl [] 1
  exact ⟨hwn, flatten_numbers_nodup _ _ le_rfl [] 1 hwn⟩

/-- Helper: one-step unfolding of `findLoop` on a non-empty path. -/
theorem findLoop_cons (cur : List AlgorithmStep) (n : Nat) (rest : List Nat)
    (tgt : Option AlgorithmStep) :
    findLoop cur (n :: rest) tgt =
      if n < 1 ∨ cur.length < n then none
      else findLoop ((cur.getD (n - 1) (AlgorithmStep.mk [] [] [])).children) rest
        (some (cur.getD (n - 1) (AlgorithmStep.mk [] [] []))) := rfl

/-- Helper: `findLoop` on the empty path returns the accumulated target. -/
theorem findLoop_nil (cur : List AlgorithmStep) (tgt : Option AlgorithmStep) :
    findLoop cur [] tgt = tgt := rfl

/-- Helper: a successful `findLoop` on a non-empty path implies the head
    index was in range. -/
theorem findLoop_some_bound {cur : List AlgorithmStep} {n : Nat} {rest : List Nat}
    {tgt : Option AlgorithmStep} {x : AlgorithmStep}
    (h : findLoop cur (n :: rest) tgt = some x) : 1 ≤ n ∧ n ≤ cur.length := by
  by_cases hc : n < 1 ∨ cur.length < n
  · rw [findLoop_cons, if_pos hc] at h
    exact absurd h (by simp)
  · omega

/-- Helper: in a positionally numbered forest, `findLoop` retrieves each
    flattened node at its (index-shifted) number path, whatever the incoming
    target accumulator is. -/
theorem wn_findLoop (N : Nat) :
    ∀ (steps : List AlgorithmStep), sizeOf steps ≤ N →
      ∀ p k, WellNumbered p k steps →
        ∀ x ∈ flatten_steps steps, ∃ j t, k ≤ j ∧ x.number = p ++ j :: t ∧
          ∀ tgt, findLoop steps ((j - k + 1) :: t) tgt = some x := by
  induction N with
  | zero =>
    intro steps h
    exact absurd h (by cases steps <;> simp)
  | succ n ih =>
    intro steps hsz p k hwn x hx
    cases hwn with
    | nil => simp [flatten_steps] at hx
    | cons _ _ tx c rest hc hrest =>
      have hb : sizeOf c ≤ n ∧ sizeOf rest ≤ n := by
        simp at hsz; omega
      simp only [flatten_steps, List.mem_cons, List.mem_append] at hx
      rcases hx with h1 | h2 | h3
      · refine ⟨k, [], le_rfl, by simp [h1, AlgorithmStep.number], ?_⟩
        intro tgt
        have h11 : k - k + 1 = 1 := by omega
        rw [h11, findLoop_cons, if_neg (by simp)]
        have e0 : (1 : Nat) - 1 = 0 := rfl
        rw [e0, List.getD_cons_zero, findLoop_nil, h1]
      · obtain ⟨j, t, hj1, hnum, hfind⟩ := ih c hb.1 (p ++ [k]) 1 hc x h2
        have hjj : j - 1 + 1 = j := by omega
        rw [hjj] at hfind
        refine ⟨k, j :: t, le_rfl, by simp [hnum], ?_⟩
        intro tgt
        have h11 : k - k + 1 = 1 := by omega
        rw [h11, findLoop_cons, if_neg (by simp)]
        have e0 : (1 : Nat) - 1 = 0 := rfl
        rw [e0, List.getD_cons_zero]
        simp only [AlgorithmStep.children]
        exact hfind _
      · obtain ⟨j, t, hj1, hnum, hfind⟩ := ih rest hb.2 p (k + 1) hrest x h3
        refine ⟨j, t, by omega, hnum, ?_⟩
        intro tgt
        have hfind' := hfind none
        obtain ⟨hm1, hm2⟩ := findLoop_some_bound hfind'
        rw [findLoop_cons, if_neg (by omega)] at hfind'
        have hidx : j - k + 1 = (j - (k + 1) + 1) + 1 := by omega
        rw [hidx, findLoop_cons, if_neg (by simp only [List.length_cons]; omega)]
        have e2 : (AlgorithmStep.mk (p ++ [k]) tx c :: rest).getD
            (j - (k + 1) + 1 + 1 - 1) (AlgorithmStep.mk [] [] []) =
            rest.getD (j - (k + 1) + 1 - 1) (AlgorithmStep.mk [] [] []) := by
          have e3 : j - (k + 1) + 1 + 1 - 1 = (j - (k + 1) + 1 - 1) + 1 := by omega
          rw [e3, List.getD_cons_succ]
        rw [e2]
        exact hfind'

/-- Helper: `descend` on the empty path. -/
theorem descend_nil (steps : List AlgorithmStep) : descend steps [] = some steps := rfl

/-- Helper: one-step unfolding of `descend`. -/
theorem descend_cons (steps : List AlgorithmStep) (n : Nat) (rest : List Nat) :
    descend steps (n :: rest) =
      if n < 1 ∨ steps.length < n then none
      else descend ((steps.getD (n - 1) (AlgorithmStep.mk [] [] [])).children) rest := rfl

/-- Helper: `findLoop` returns `none` whenever some path component is out of
    range for the sibling list at its level. -/
theorem findLoop_descend_bad (k : Nat) :
    ∀ (path : List Nat) (steps cur : List AlgorithmStep) (tgt : Option AlgorithmStep),
      k < path.length →
      descend steps (path.take k) = some cur →
      (path.getD k 0 < 1 ∨ cur.length < path.getD k 0) →
      findLoop steps path tgt = none := by
  induction k with
  | zero =>
    intro path steps cur tgt hk hdesc hbad
    match path with
    | [] => exact absurd hk (by simp)
    | n :: rest =>
      rw [List.take_zero, descend_nil] at hdesc
      have hcur : steps = cur := Option.some.inj hdesc
      rw [List.getD_cons_zero] at hbad
      rw [findLoop_cons, if_pos (by rw [hcur]; exact hbad)]
  | succ k ih =>
    intro path steps cur tgt hk hdesc hbad
    match path with
    | [] => exact absurd hk (by simp)
    | n :: rest =>
      rw [List.take_succ_cons, descend_cons] at hdesc
      by_cases hc : n < 1 ∨ steps.length < n
      · rw [findLoop_cons, if_pos hc]
      · rw [if_neg hc] at hdesc
        rw [findLoop_cons, if_neg hc]
        exact ih rest _ cur _ (by simpa using hk) hdesc (by simpa using hbad)

/-- C10: round trip between flatten and lookup — every node of a tree
    produced by `parse_steps` is found by `find_step` at its own number;
    `find_step` returns `none` on the empty path; and `find_step` returns
    `none` on any path one of whose components is less than 1 or exceeds the
    number of children of the sibling list at its level (`descend` of the
    preceding components). -/
theorem C10_find_step_flatten_roundtrip :
    (∀ (content : Str) (x : AlgorithmStep), x ∈ flatten_steps (parse_steps content) →
      find_step (parse_steps content) x.number = some x) ∧
    (∀ steps : List AlgorithmStep, find_step steps [] = none) ∧
    (∀ (steps cur : List AlgorithmStep) (path : List Nat) (k : Nat),
      k < path.length →
      descend steps (path.take k) = some cur →
      (path.getD k 0 < 1 ∨ cur.length < path.getD k 0) →
      find_step steps path = none) := by
  refine ⟨?_, ?_, ?_⟩
  · intro content x hx
    have hwn : WellNumbered [] 1 (parse_steps content) := by
      unfold parse_steps
      exact assign_numbers_wn _ _ le_rfl [] 1
    obtain ⟨j, t, hj, hnum, hfind⟩ := wn_findLoop _ _ le_rfl [] 1 hwn x hx
    have hj' : j - 1 + 1 = j := by omega
    rw [hj'] at hfind
    rw [hnum]
    simp only [List.nil_append, find_step, List.isEmpty_cons, Bool.false_eq_true, if_false]
    exact hfind none
  · intro steps; rfl
  · intro steps cur path k hk hdesc hbad
    have hne : path ≠ [] := by
      intro h; rw [h] at hk; simp at hk
    obtain ⟨n, rest, rfl⟩ := List.exists_cons_of_ne_nil hne
    simp only [find_step, List.isEmpty_cons, Bool.false_eq_true, if_false]
    exact findLoop_descend_bad k _ _ cur _ hk hdesc hbad

/-- Witness for C10 on the concrete content `"1. a"` and the out-of-range
    path `[2]`. -/
theorem C10_find_step_flatten_roundtrip_witness :
    (AlgorithmStep.mk [1] ['a'] [] ∈ flatten_steps (parse_steps ['1', '.', ' ', 'a'])) ∧
    find_step (parse_steps ['1', '.', ' ', 'a']) (AlgorithmStep.mk [1] ['a'] []).number
      = some (AlgorithmStep.mk [1] ['a'] []) ∧
    find_step [AlgorithmStep.mk [1] ['a'] []] [2] = none := by
  have hp : parse_steps ['1', '.', ' ', 'a'] = [AlgorithmStep.mk [1] ['a'] []] := by
    rw [show parse_steps ['1', '.', ' ', 'a']
        = assign_numbers [] [PreStep.mk ['a'] []] 1 from rfl]
    simp [assign_numbers]
  have hmem : AlgorithmStep.mk [1] ['a'] []
      ∈ flatten_steps (parse_steps ['1', '.', ' ', 'a']) := by
    rw [hp]
    simp [flatten_steps]
  refine ⟨hmem, C10_find_step_flatten_roundtrip.1 _ _ hmem, ?_⟩
  exact C10_find_step_flatten_roundtrip.2.2 _ [AlgorithmStep.mk [1] ['a'] []] [2] 0
    (by decide) rfl (by simp)

/-! ## Claim C2 — coverage partition -/

/-- Helper: behaviour of the add-if-unseen branch of the coverage loop. -/
theorem covAdd_spec (idx : List (List Nat × Nat)) (st : CovState) (key : List Nat)
    (hset : st.implemented_set = st.implemented) :
    (covAdd idx st key).implemented_set = (covAdd idx st key).implemented ∧
    (covAdd idx st key).warnings = st.warnings ∧
    (∀ x, x ∈ (covAdd idx st key).implemented ↔ x ∈ st.implemented ∨ x = key) ∧
    (st.implemented.Nodup → (covAdd idx st key).implemented.Nodup) := by
  by_cases hmem : key ∈ st.implemented_set
  · have h : covAdd idx st key = st := by
      unfold covAdd; rw [if_pos hmem]
    rw [h]
    refine ⟨hset, rfl, ?_, fun hh => hh⟩
    intro x
    constructor
    · exact Or.inl
    · rintro (h' | rfl)
      · exact h'
      · rw [← hset]; exact hmem
  · have h : covAdd idx st key = CovState.mk (st.implemented ++ [key])
        (st.implemented_set ++ [key])
        (st.positions ++ (match idx.lookup key with
          | some i => [i]
          | none => []))
        st.warnings := by
      unfold covAdd; rw [if_neg hmem]
    rw [h]
    refine ⟨by simp [hset], rfl, ?_, ?_⟩
    · intro x
      simp
    · intro hnd
      have hkey : key ∉ st.implemented := by rw [← hset]; exact hmem
      simp [List.nodup_append, hnd, hkey]

/-- Helper: the invariants of the `compute_coverage` loop, by induction on
    the processed validations: the membership set mirrors the insertion
    list, the insertion list is duplicate-free, a number is implemented
    exactly when some non-NOT_FOUND validation carries it, and warnings
    count the MISMATCH and NOT_FOUND validations. -/
theorem covFold_invariants (idx : List (List Nat × Nat)) (vs : List StepValidation) :
    (covFold idx vs).implemented_set = (covFold idx vs).implemented ∧
    (covFold idx vs).implemented.Nodup ∧
    (∀ x, x ∈ (covFold idx vs).implemented ↔
      ∃ v ∈ vs, v.result ≠ MatchResult.NOT_FOUND ∧ v.step.number = x) ∧
    (covFold idx vs).warnings =
      vs.countP (fun v => v.result == MatchResult.MISMATCH) +
      vs.countP (fun v => v.result == MatchResult.NOT_FOUND) := by
  induction vs using List.reverseRecOn with
  | nil =>
    refine ⟨rfl, by simp [covFold], ?_, by simp [covFold]⟩
    intro x
    simp [covFold]
  | append_singleton vs v ih =>
    obtain ⟨hset, hnodup, hmem, hwarn⟩ := ih
    have hfold : covFold idx (vs ++ [v]) = covStep idx (covFold idx vs) v := by
      simp [covFold, List.foldl_append]
    rw [hfold]
    have hmem' : ∀ x, (∃ v' ∈ vs ++ [v], v'.result ≠ MatchResult.NOT_FOUND ∧
        v'.step.number = x) ↔
        ((∃ v' ∈ vs, v'.result ≠ MatchResult.NOT_FOUND ∧ v'.step.number = x) ∨
         (v.result ≠ MatchResult.NOT_FOUND ∧ v.step.number = x)) := by
      intro x
      constructor
      · rintro ⟨v', hv', hp⟩
        rcases List.mem_append.1 hv' with h | h
        · exact Or.inl ⟨v', h, hp⟩
        · rw [List.mem_singleton] at h
          subst h
          exact Or.inr hp
      · rintro (⟨v', hv', hp⟩ | hp)
        · exact ⟨v', List.mem_append.2 (Or.inl hv'), hp⟩
        · exact ⟨v, List.mem_append.2 (Or.inr (List.mem_singleton.2 rfl)), hp⟩
    cases hres : v.result with
    | EXACT =>
      obtain ⟨h1, h2, h3, h4⟩ := covAdd_spec idx (covFold idx vs) v.step.number hset
      simp only [covStep, hres]
      refine ⟨h1, h4 hnodup, ?_, ?_⟩
      · intro x
        rw [h3 x, hmem' x]
        constructor
        · rintro (h | rfl)
          · exact Or.inl ((hmem x).1 h)
          · exact Or.inr ⟨by simp [hres], rfl⟩
        · rintro (h | ⟨hnf, hnum⟩)
          · exact Or.inl ((hmem x).2 h)
          · exact Or.inr hnum.symm
      · rw [h2, hwarn]
        simp [List.countP_append, List.countP_cons, hres]
    | FUZZY =>
      obtain ⟨h1, h2, h3, h4⟩ := covAdd_spec idx (covFold idx vs) v.step.number hset
      simp only [covStep, hres]
      refine ⟨h1, h4 hnodup, ?_, ?_⟩
      · intro x
        rw [h3 x, hmem' x]
        constructor
        · rintro (h | rfl)
          · exact Or.inl ((hmem x).1 h)
          · exact Or.inr ⟨by simp [hres], rfl⟩
        · rintro (h | ⟨hnf, hnum⟩)
          · exact Or.inl ((hmem x).2 h)
          · exact Or.inr hnum.symm
      · rw [h2, hwarn]
        simp [List.countP_append, List.countP_cons, hres]
    | MISMATCH =>
      obtain ⟨h1, h2, h3, h4⟩ := covAdd_spec idx (covFold idx vs) v.step.number hset
      simp only [covStep, hres]
      refine ⟨h1, h4 hnodup, ?_, ?_⟩
      · intro x
        rw [h3 x, hmem' x]
        constructor
        · rintro (h | rfl)
          · exact Or.inl ((hmem x).1 h)
          · exact Or.inr ⟨by simp [hres], rfl⟩
        · rintro (h | ⟨hnf, hnum⟩)
          · exact Or.inl ((hmem x).2 h)
          · exact Or.inr hnum.symm
      · rw [h2, hwarn]
        simp [List.countP_append, List.countP_cons, hres]
        omega
    | NOT_FOUND =>
      have himp : (covStep idx (covFold idx vs) v).implemented
          = (covFold idx vs).implemented := by
        simp [covStep, hres]
      have hsets : (covStep idx (covFold idx vs) v).implemented_set
          = (covFold idx vs).implemented_set := by
        simp [covStep, hres]
      have hw : (covStep idx (covFold idx vs) v).warnings
          = (covFold idx vs).warnings + 1 := by
        simp [covStep, hres]
      refine ⟨by rw [hsets, himp]; exact hset, by rw [himp]; exact hnodup, ?_, ?_⟩
      · intro x
        rw [himp, hmem x, hmem' x]
        constructor
        · exact Or.inl
        · rintro (h | ⟨hnf, _⟩)
          · exact h
          · exact absurd hres hnf
      · rw [hw, hwarn]
        simp [List.countP_append, List.countP_cons, hres]
        omega

/-- C2: `compute_coverage` partitions the flattened spec numbers — when every
    EXACT/FUZZY/MISMATCH validation's number occurs among the flattened
    numbers: implemented and missing are disjoint, their union is exactly the
    flattened numbers, a duplicated number is implemented once
    (`implemented.Nodup`), a number is implemented precisely when some
    non-NOT_FOUND validation carries it (so NOT_FOUND never adds and
    MISMATCH does), and warnings is the count of MISMATCH plus NOT_FOUND
    validations. -/
theorem C2_compute_coverage_partition (validations : List StepValidation)
    (algo_steps : List AlgorithmStep) (anchor : Str)
    (H : ∀ v ∈ validations, v.result ≠ MatchResult.NOT_FOUND →
      v.step.number ∈ (flatten_steps algo_steps).map AlgorithmStep.number) :
    (∀ x, ¬(x ∈ (compute_coverage validations algo_steps anchor).implemented ∧
      x ∈ (compute_coverage validations algo_steps anchor).missing)) ∧
    (∀ x, (x ∈ (compute_coverage validations algo_steps anchor).implemented ∨
      x ∈ (compute_coverage validations algo_steps anchor).missing) ↔
      x ∈ (flatten_steps algo_steps).map AlgorithmStep.number) ∧
    (compute_coverage validations algo_steps anchor).implemented.Nodup ∧
    (∀ x, x ∈ (compute_coverage validations algo_steps anchor).implemented ↔
      ∃ v ∈ validations, v.result ≠ MatchResult.NOT_FOUND ∧ v.step.number = x) ∧
    (compute_coverage validations algo_steps anchor).warnings =
      validations.countP (fun v => v.result == MatchResult.MISMATCH) +
      validations.countP (fun v => v.result == MatchResult.NOT_FOUND) := by
  obtain ⟨hset, hnodup, hmem, hwarn⟩ :=
    covFold_invariants (step_to_idx (flatten_steps algo_steps)) validations
  have himpl : (compute_coverage validations algo_steps anchor).implemented
      = (covFold (step_to_idx (flatten_steps algo_steps)) validations).implemented := rfl
  have hmissing : (compute_coverage validations algo_steps anchor).missing
      = ((flatten_steps algo_steps).filter fun s => !(decide (s.number ∈
          (covFold (step_to_idx (flatten_steps algo_steps))
            validations).implemented_set))).map AlgorithmStep.number := rfl
  have hwarns : (compute_coverage validations algo_steps anchor).warnings
      = (covFold (step_to_idx (flatten_steps algo_steps)) validations).warnings := rfl
  have hmiss' : ∀ x, x ∈ (compute_coverage validations algo_steps anchor).missing ↔
      x ∈ (flatten_steps algo_steps).map AlgorithmStep.number ∧
      x ∉ (covFold (step_to_idx (flatten_steps algo_steps)) validations).implemented := by
    intro x
    rw [hmissing]
    constructor
    · intro hx
      rcases List.mem_map.1 hx with ⟨s, hs, rfl⟩
      rcases List.mem_filter.1 hs with ⟨hsl, hp⟩
      refine ⟨List.mem_map.2 ⟨s, hsl, rfl⟩, ?_⟩
      rw [← hset]
      simpa using hp
    · rintro ⟨hx, hnx⟩
      rcases List.mem_map.1 hx with ⟨s, hs, rfl⟩
      refine List.mem_map.2 ⟨s, List.mem_filter.2 ⟨hs, ?_⟩, rfl⟩
      rw [hset] at *
      simpa using hnx
  refine ⟨?_, ?_, by rw [himpl]; exact hnodup, ?_, by rw [hwarns]; exact hwarn⟩
  · intro x ⟨hxi, hxm⟩
    rw [himpl] at hxi
    exact ((hmiss' x).1 hxm).2 hxi
  · intro x
    constructor
    · rintro (hxi | hxm)
      · rw [himpl] at hxi
        obtain ⟨v, hv, hnf, hnum⟩ := (hmem x).1 hxi
        exact hnum ▸ H v hv hnf
      · exact ((hmiss' x).1 hxm).1
    · intro hx
      by_cases hxi : x ∈ (covFold (step_to_idx (flatten_steps algo_steps))
          validations).implemented
      · exact Or.inl (by rw [himpl]; exact hxi)
      · exact Or.inr ((hmiss' x).2 ⟨hx, hxi⟩)
  · intro x
    rw [himpl]
    exact hmem x

/-- Witness for C2 on a one-step tree and a single EXACT validation. -/
theorem C2_compute_coverage_partition_witness :
    (∀ v ∈ [StepValidation.mk (StepComment.mk 0 0 4 [1] ['a'] none)
        MatchResult.EXACT ['a'] ['n']], v.result ≠ MatchResult.NOT_FOUND →
      v.step.number ∈ (flatten_steps [AlgorithmStep.mk [1] ['a'] []]).map
        AlgorithmStep.number) ∧
    (compute_coverage [StepValidation.mk (StepComment.mk 0 0 4 [1] ['a'] none)
        MatchResult.EXACT ['a'] ['n']] [AlgorithmStep.mk [1] ['a'] []] ['n']).warnings =
      [StepValidation.mk (StepComment.mk 0 0 4 [1] ['a'] none)
        MatchResult.EXACT ['a'] ['n']].countP (fun v => v.result == MatchResult.MISMATCH) +
      [StepValidation.mk (StepComment.mk 0 0 4 [1] ['a'] none)
        MatchResult.EXACT ['a'] ['n']].countP (fun v => v.result == MatchResult.NOT_FOUND) := by
  have hflat : flatten_steps [AlgorithmStep.mk [1] ['a'] []]
      = [AlgorithmStep.mk [1] ['a'] []] := by
    simp [flatten_steps]
  have hH : ∀ v ∈ [StepValidation.mk (StepComment.mk 0 0 4 [1] ['a'] none)
      MatchResult.EXACT ['a'] ['n']], v.result ≠ MatchResult.NOT_FOUND →
      v.step.number ∈ (flatten_steps [AlgorithmStep.mk [1] ['a'] []]).map
        AlgorithmStep.number := by
    rw [hflat]
    intro v hv _
    rcases List.mem_singleton.1 hv with rfl
    simp [AlgorithmStep.number]
  exact ⟨hH, (C2_compute_coverage_partition _ _ _ hH).2.2.2.2⟩

/-! ## Claim C4 — patience sorting computes the strict LIS -/

/-- Helper: `getD` into the left part of an append. -/
theorem getD_append_lt {α : Type} (l l2 : List α) (i : Nat) (d : α) (h : i < l.length) :
    (l ++ l2).getD i d = l.getD i d := by
  induction l generalizing i with
  | nil => simp at h
  | cons a l ih =>
    cases i with
    | zero => simp
    | succ i => simpa using ih i (by simpa using h)

/-- Helper: `getD` at the appended element. -/
theorem getD_concat_len {α : Type} (l : List α) (v d : α) :
    (l ++ [v]).getD l.length d = v := by
  induction l with
  | nil => simp
  | cons a l ih => simp [ih]

/-- Helper: `getD` at the written position of `set`. -/
theorem getD_set_self {α : Type} (l : List α) (pos : Nat) (v d : α) (h : pos < l.length) :
    (l.set pos v).getD pos d = v := by
  induction l generalizing pos with
  | nil => simp at h
  | cons a l ih =>
    cases pos with
    | zero => simp
    | succ pos => simpa using ih pos (by simpa using h)

/-- Helper: `getD` away from the written position of `set`. -/
theorem getD_set_ne {α : Type} (l : List α) (pos i : Nat) (v d : α) (h : pos ≠ i) :
    (l.set pos v).getD i d = l.getD i d := by
  induction l generalizing pos i with
  | nil => simp
  | cons a l ih =>
    cases pos with
    | zero =>
      cases i with
      | zero => exact absurd rfl h
      | succ i => simp
    | succ pos =>
      cases i with
      | zero => simp
      | succ i => simpa using ih pos i (by omega)

/-- Helper: a `getD` in range is a member. -/
theorem getD_mem {α : Type} (l : List α) (i : Nat) (d : α) (h : i < l.length) :
    l.getD i d ∈ l := by
  induction l generalizing i with
  | nil => simp at h
  | cons a l ih =>
    cases i with
    | zero => simp
    | succ i =>
      simp only [List.getD_cons_succ]
      exact List.mem_cons_of_mem a (ih i (by simpa using h))

/-- Helper: the insertion point never exceeds the list length. -/
theorem bisect_le_len (t : List Nat) (v : Nat) : bisect_left t v ≤ t.length :=
  takeWhile_len_le _ t

/-- Helper: entries before the insertion point are below `v`. -/
theorem bisect_lt (t : List Nat) (v : Nat) :
    ∀ i, i < bisect_left t v → t.getD i 0 < v := by
  induction t with
  | nil => intro i h; simp [bisect_left] at h
  | cons a t ih =>
    intro i h
    rw [bisect_left, List.takeWhile_cons] at h
    by_cases ha : a < v
    · simp only [decide_eq_true ha, if_true, List.length_cons] at h
      cases i with
      | zero => simp only [List.getD_cons_zero]; exact ha
      | succ i => simpa using ih i (by rw [bisect_left]; omega)
    · simp [ha] at h

/-- Helper: the entry at an in-range insertion point is at least `v`. -/
theorem bisect_ge (t : List Nat) (v : Nat) (h : bisect_left t v < t.length) :
    v ≤ t.getD (bisect_left t v) 0 := by
  induction t with
  | nil => simp at h
  | cons a t ih =>
    rw [bisect_left, List.takeWhile_cons]
    by_cases ha : a < v
    · rw [bisect_left, List.takeWhile_cons] at h
      simp only [decide_eq_true ha, if_true, List.length_cons] at h ⊢
      simpa using ih (by rw [bisect_left]; omega)
    · simp [ha]
      omega

/-- Helper: strict sortedness stated through `getD`. -/
theorem pairwise_lt_iff_getD (t : List Nat) :
    List.Pairwise (· < ·) t ↔ ∀ i j, i < j → j < t.length → t.getD i 0 < t.getD j 0 := by
  rw [List.pairwise_iff_getElem]
  constructor
  · intro h i j hij hj
    have hi : i < t.length := by omega
    rw [List.getD_eq_getElem t 0 hi, List.getD_eq_getElem t 0 hj]
    exact h i j hi hj hij
  · intro h i j hi hj hij
    have := h i j hij hj
    rwa [List.getD_eq_getElem t 0 hi, List.getD_eq_getElem t 0 hj] at this

/-- Helper: a sublist of `P ++ [v]` either avoids the last element or ends
    with it. -/
theorem sublist_concat_cases {α : Type} {l P : List α} {v : α}
    (h : List.Sublist l (P ++ [v])) :
    List.Sublist l P ∨ ∃ l2, l = l2 ++ [v] ∧ List.Sublist l2 P := by
  rw [List.sublist_append_iff] at h
  obtain ⟨s, t, rfl, hs, ht⟩ := h
  rw [List.sublist_singleton] at ht
  rcases ht with rfl | rfl
  · left; simpa using hs
  · right; exact ⟨s, rfl, hs⟩

/-- Helper: a strict chain extended by one element. -/
theorem chain_concat_iff {l : List Nat} {v : Nat} :
    List.Chain' (· < ·) (l ++ [v]) ↔
      List.Chain' (· < ·) l ∧ ∀ x ∈ l.getLast?, x < v := by
  rw [List.chain'_append]
  simp

/-- Helper: the patience-sorting invariants, by induction over the processed
    prefix: the tails list is strictly sorted; each of its entries is the
    last element of some strictly increasing sublist of the processed prefix
    of the corresponding length; and every strictly increasing sublist is no
    longer than the tails list, whose entry at (length − 1) is at most the
    sublist's last element. -/
theorem patience_invariants (seq : List Nat) :
    List.Pairwise (· < ·) (seq.foldl patienceStep []) ∧
    (∀ i, i < (seq.foldl patienceStep []).length → ∃ l, List.Sublist l seq ∧
      List.Chain' (· < ·) l ∧ l.length = i + 1 ∧
      l.getLast? = some ((seq.foldl patienceStep []).getD i 0)) ∧
    (∀ l, List.Sublist l seq → List.Chain' (· < ·) l →
      l.length ≤ (seq.foldl patienceStep []).length ∧
      (l ≠ [] → (seq.foldl patienceStep []).getD (l.length - 1) 0 ≤ l.getLast?.getD 0)) := by
  induction seq using List.reverseRecOn with
  | nil =>
    refine ⟨by simp, by simp, ?_⟩
    intro l hsub hch
    rw [List.sublist_nil] at hsub
    subst hsub
    simp
  | append_singleton P v ih =>
    obtain ⟨hsort, hinv1, hinv2⟩ := ih
    have hfold : (P ++ [v]).foldl patienceStep [] = patienceStep (P.foldl patienceStep []) v := by
      simp [List.foldl_append]
    rw [hfold]
    generalize hT : P.foldl patienceStep [] = t at hsort hinv1 hinv2
    by_cases hc : bisect_left t v = t.length
    · -- append branch: every tail entry is below v
      have hps : patienceStep t v = t ++ [v] := by
        simp only [patienceStep]
        rw [if_pos hc]
      rw [hps]
      refine ⟨?_, ?_, ?_⟩
      · refine List.pairwise_append.2 ⟨hsort, by simp, ?_⟩
        intro a ha b hb
        rw [List.mem_singleton] at hb
        obtain ⟨i, hi, rfl⟩ := List.mem_iff_getElem.1 ha
        rw [hb, ← List.getD_eq_getElem t 0 hi]
        exact bisect_lt t v i (by omega)
      · intro i hi
        rw [List.length_append, List.length_singleton] at hi
        by_cases hit : i < t.length
        · obtain ⟨l, hsub, hch, hlen, hlast⟩ := hinv1 i hit
          exact ⟨l, hsub.trans (List.sublist_append_left P [v]), hch, hlen,
            by rw [getD_append_lt t [v] i 0 hit]; exact hlast⟩
        · have hieq : i = t.length := by omega
          subst hieq
          by_cases ht0 : t.length = 0
          · refine ⟨[v], List.sublist_append_right P [v], List.chain'_singleton v,
              by simp [ht0], ?_⟩
            rw [getD_concat_len]
            rfl
          · obtain ⟨l, hsub, hch, hlen, hlast⟩ := hinv1 (t.length - 1) (by omega)
            have hlt : t.getD (t.length - 1) 0 < v := bisect_lt t v _ (by omega)
            refine ⟨l ++ [v], List.Sublist.append hsub (List.Sublist.refl [v]), ?_,
              by simp [hlen]; omega, ?_⟩
            · rw [chain_concat_iff]
              refine ⟨hch, ?_⟩
              intro x hx
              rw [hlast] at hx
              have hx2 : t.getD (t.length - 1) 0 = x := by simpa using hx
              omega
            · rw [List.getLast?_concat, getD_concat_len]
      · intro l hsub hch
        rcases sublist_concat_cases hsub with hP | ⟨l2, rfl, hl2⟩
        · obtain ⟨hle, hval⟩ := hinv2 l hP hch
          refine ⟨by simp; omega, ?_⟩
          intro hne
          have hlp : 0 < l.length := List.length_pos.2 hne
          have h1 : l.length - 1 < t.length := by omega
          rw [getD_append_lt t [v] _ 0 h1]
          exact hval hne
        · rw [chain_concat_iff] at hch
          obtain ⟨hch2, hlastlt⟩ := hch
          by_cases h20 : l2 = []
          · subst h20
            simp only [List.nil_append]
            refine ⟨by simp, ?_⟩
            intro _
            simp only [List.length_singleton, Nat.sub_self]
            by_cases ht0 : t.length = 0
            · have ht' : t = [] := List.length_eq_zero.1 ht0
              rw [ht']
              simp
            · rw [getD_append_lt t [v] 0 0 (by omega)]
              have := bisect_lt t v 0 (by omega)
              simp only [List.getLast?_singleton, Option.getD_some]
              omega
          · obtain ⟨hle2, hval2⟩ := hinv2 l2 hl2 hch2
            obtain ⟨y, hy⟩ := Option.isSome_iff_exists.1 (List.getLast?_isSome.2 h20)
            have hyv : y < v := hlastlt y hy
            have hv2 : t.getD (l2.length - 1) 0 ≤ y := by
              have := hval2 h20
              rw [hy] at this
              simpa using this
            refine ⟨by simp; omega, ?_⟩
            intro _
            have hlen' : (l2 ++ [v]).length - 1 = l2.length := by simp
            rw [hlen', List.getLast?_concat]
            simp only [Option.getD_some]
            by_cases hcase2 : l2.length = t.length
            · rw [hcase2, getD_concat_len]
            · have h2 : l2.length < t.length := by omega
              rw [getD_append_lt t [v] _ 0 h2]
              have := bisect_lt t v l2.length (by omega)
              omega
    · -- set branch: replace the first entry that is at least v
      have hpos : bisect_left t v < t.length := lt_of_le_of_ne (bisect_le_len t v) hc
      have hps : patienceStep t v = t.set (bisect_left t v) v := by
        simp only [patienceStep]
        rw [if_neg hc]
      rw [hps]
      have hvle : v ≤ t.getD (bisect_left t v) 0 := bisect_ge t v hpos
      have hlen_set : (t.set (bisect_left t v) v).length = t.length := List.length_set t _ v
      have hpoint : ∀ i, i < t.length →
          (t.set (bisect_left t v) v).getD i 0 ≤ t.getD i 0 := by
        intro i hi
        by_cases hip : bisect_left t v = i
        · rw [← hip, getD_set_self t _ v 0 hpos]
          exact hvle
        · rw [getD_set_ne t _ i v 0 hip]
      refine ⟨?_, ?_, ?_⟩
      · rw [pairwise_lt_iff_getD] at hsort ⊢
        intro i j hij hj
        rw [hlen_set] at hj
        by_cases hip : bisect_left t v = i
        · have e1 : (t.set (bisect_left t v) v).getD i 0 = v := by
            rw [← hip]
            exact getD_set_self t _ v 0 hpos
          have hjp : bisect_left t v ≠ j := by omega
          have e2 : (t.set (bisect_left t v) v).getD j 0 = t.getD j 0 :=
            getD_set_ne t _ j v 0 hjp
          rw [e1, e2]
          have h1 := hsort i j hij hj
          have h2 : v ≤ t.getD i 0 := hip ▸ hvle
          omega
        · by_cases hjp : bisect_left t v = j
          · have e1 : (t.set (bisect_left t v) v).getD i 0 = t.getD i 0 :=
              getD_set_ne t _ i v 0 hip
            have e2 : (t.set (bisect_left t v) v).getD j 0 = v := by
              rw [← hjp]
              exact getD_set_self t _ v 0 hpos
            rw [e1, e2]
            exact bisect_lt t v i (by omega)
          · rw [getD_set_ne t _ i v 0 hip, getD_set_ne t _ j v 0 hjp]
            exact hsort i j hij hj
      · intro i hi
        rw [hlen_set] at hi
        by_cases hip : bisect_left t v = i
        · by_cases hi0 : i = 0
          · subst hi0
            refine ⟨[v], List.sublist_append_right P [v], List.chain'_singleton v, rfl, ?_⟩
            have e : (t.set (bisect_left t v) v).getD 0 0 = v := by
              rw [hip]
              exact getD_set_self t 0 v 0 (by omega)
            rw [e]
            rfl
          · obtain ⟨l, hsub, hch, hlen, hlast⟩ := hinv1 (i - 1) (by omega)
            have hlt : t.getD (i - 1) 0 < v := bisect_lt t v _ (by omega)
            refine ⟨l ++ [v], List.Sublist.append hsub (List.Sublist.refl [v]), ?_,
              by simp [hlen]; omega, ?_⟩
            · rw [chain_concat_iff]
              refine ⟨hch, ?_⟩
              intro x hx
              rw [hlast] at hx
              have hx2 : t.getD (i - 1) 0 = x := by simpa using hx
              omega
            · rw [List.getLast?_concat]
              have e : (t.set (bisect_left t v) v).getD i 0 = v := by
                rw [← hip]
                exact getD_set_self t (bisect_left t v) v 0 hpos
              rw [e]
        · obtain ⟨l, hsub, hch, hlen, hlast⟩ := hinv1 i hi
          exact ⟨l, hsub.trans (List.sublist_append_left P [v]), hch, hlen,
            by rw [getD_set_ne t _ i v 0 hip]; exact hlast⟩
      · intro l hsub hch
        rcases sublist_concat_cases hsub with hP | ⟨l2, rfl, hl2⟩
        · obtain ⟨hle, hval⟩ := hinv2 l hP hch
          refine ⟨by rw [hlen_set]; exact hle, ?_⟩
          intro hne
          have hlp : 0 < l.length := List.length_pos.2 hne
          have h1 : l.length - 1 < t.length := by omega
          calc (t.set (bisect_left t v) v).getD (l.length - 1) 0
              ≤ t.getD (l.length - 1) 0 := hpoint _ h1
          _ ≤ _ := hval hne
        · rw [chain_concat_iff] at hch
          obtain ⟨hch2, hlastlt⟩ := hch
          by_cases h20 : l2 = []
          · subst h20
            simp only [List.nil_append]
            refine ⟨by rw [hlen_set]; simp; omega, ?_⟩
            intro _
            simp only [List.length_singleton, Nat.sub_self, List.getLast?_singleton,
              Option.getD_some]
            by_cases hp0 : bisect_left t v = 0
            · have e : (t.set (bisect_left t v) v).getD 0 0 = v := by
                rw [hp0]
                exact getD_set_self t 0 v 0 (by omega)
              rw [e]
            · rw [getD_set_ne t _ 0 v 0 hp0]
              have := bisect_lt t v 0 (by omega)
              omega
          · obtain ⟨hle2, hval2⟩ := hinv2 l2 hl2 hch2
            obtain ⟨y, hy⟩ := Option.isSome_iff_exists.1 (List.getLast?_isSome.2 h20)
            have hyv : y < v := hlastlt y hy
            have hv2 : t.getD (l2.length - 1) 0 ≤ y := by
              have := hval2 h20
              rw [hy] at this
              simpa using this
            have hl2pos : 0 < l2.length := List.length_pos.2 h20
            have hk2 : l2.length ≤ bisect_left t v := by
              by_contra hgt
              push_neg at hgt
              have hidx : l2.length - 1 < t.length := by omega
              have hvge : v ≤ t.getD (l2.length - 1) 0 := by
                by_cases heq : bisect_left t v = l2.length - 1
                · rw [← heq]; exact hvle
                · have hlt2 : bisect_left t v < l2.length - 1 := by omega
                  have := (pairwise_lt_iff_getD t).1 hsort (bisect_left t v)
                    (l2.length - 1) hlt2 hidx
                  omega
              omega
            refine ⟨by rw [hlen_set]; simp; omega, ?_⟩
            intro _
            have hlen' : (l2 ++ [v]).length - 1 = l2.length := by simp
            rw [hlen', List.getLast?_concat]
            simp only [Option.getD_some]
            by_cases heq : bisect_left t v = l2.length
            · have e : (t.set (bisect_left t v) v).getD l2.length 0 = v := by
                rw [← heq]
                exact getD_set_self t (bisect_left t v) v 0 hpos
              rw [e]
            · have h2 : l2.length < bisect_left t v := by omega
              rw [getD_set_ne t _ _ v 0 heq]
              have := bisect_lt t v l2.length h2
              omega

/-- Helper: every member bounds `foldr max 0` from below. -/
theorem le_foldr_max {x : Nat} {L : List Nat} (h : x ∈ L) : x ≤ L.foldr max 0 := by
  induction L with
  | nil => simp at h
  | cons a L ih =>
    rcases List.mem_cons.1 h with rfl | h'
    · simp [List.foldr_cons, le_max_left]
    · exact le_trans (ih h') (by simp [List.foldr_cons, le_max_right])

/-- Helper: `foldr max 0` is bounded by any common upper bound. -/
theorem foldr_max_le {L : List Nat} {b : Nat} (h : ∀ x ∈ L, x ≤ b) : L.foldr max 0 ≤ b := by
  induction L with
  | nil => simp
  | cons a L ih =>
    simp only [List.foldr_cons, max_le_iff]
    exact ⟨h a (by simp), ih fun x hx => h x (by simp [hx])⟩

/-- Helper: `foldr max 0` is zero or attained by a member. -/
theorem foldr_max_mem (L : List Nat) : L.foldr max 0 = 0 ∨ L.foldr max 0 ∈ L := by
  induction L with
  | nil => simp
  | cons a L ih =>
    simp only [List.foldr_cons]
    rcases Nat.le_total a (L.foldr max 0) with h | h
    · rw [max_eq_right h]
      rcases ih with h0 | hmem
      · exact Or.inl h0
      · exact Or.inr (List.mem_cons_of_mem a hmem)
    · rw [max_eq_left h]
      exact Or.inr (List.mem_cons_self a L)

/-- Helper: the patience-sorting loop computes the length of a longest
    strictly increasing sublist. -/
theorem patience_eq_lis_spec (seq : List Nat) :
    longest_increasing_subsequence_length seq = lis_spec seq := by
  obtain ⟨_, hinv1, hinv2⟩ := patience_invariants seq
  apply le_antisymm
  · rcases Nat.eq_zero_or_pos (seq.foldl patienceStep []).length with h0 | hpos
    · rw [longest_increasing_subsequence_length, h0]
      exact Nat.zero_le _
    · obtain ⟨l, hsub, hchain, hlen, _⟩ := hinv1 ((seq.foldl patienceStep []).length - 1)
        (by omega)
      have hmem : l.length ∈ ((seq.sublists.filter fun l =>
          decide (List.Chain' (· < ·) l)).map List.length) :=
        List.mem_map.2 ⟨l, List.mem_filter.2 ⟨List.mem_sublists.2 hsub, by
          simpa using hchain⟩, rfl⟩
      rw [longest_increasing_subsequence_length]
      calc (seq.foldl patienceStep []).length = l.length := by omega
      _ ≤ lis_spec seq := le_foldr_max hmem
  · apply foldr_max_le
    intro x hx
    rcases List.mem_map.1 hx with ⟨l, hl, rfl⟩
    rcases List.mem_filter.1 hl with ⟨hsub, hchain⟩
    exact (hinv2 l (List.mem_sublists.1 hsub) (by simpa using hchain)).1

/-- Helper: the LIS length never exceeds the sequence length. -/
theorem lis_spec_le_length (seq : List Nat) : lis_spec seq ≤ seq.length := by
  apply foldr_max_le
  intro x hx
  rcases List.mem_map.1 hx with ⟨l, hl, rfl⟩
  rcases List.mem_filter.1 hl with ⟨hsub, _⟩
  exact (List.mem_sublists.1 hsub).length_le

/-- Helper: a non-empty sequence has LIS length at least 1. -/
theorem lis_spec_pos (seq : List Nat) (h : seq ≠ []) : 1 ≤ lis_spec seq := by
  obtain ⟨a, rest, rfl⟩ := List.exists_cons_of_ne_nil h
  have hmem : ([a] : List Nat).length ∈ (((a :: rest).sublists.filter fun l =>
      decide (List.Chain' (· < ·) l)).map List.length) :=
    List.mem_map.2 ⟨[a], List.mem_filter.2 ⟨List.mem_sublists.2
      (List.singleton_sublist.2 (List.mem_cons_self a rest)), by simp⟩, rfl⟩
  simpa using le_foldr_max hmem

/-- Helper: the LIS length equals the sequence length exactly when the
    sequence is strictly increasing. -/
theorem lis_spec_eq_length_iff (seq : List Nat) :
    lis_spec seq = seq.length ↔ List.Chain' (· < ·) seq := by
  constructor
  · intro h
    rcases Nat.eq_zero_or_pos seq.length with h0 | hpos
    · rw [List.length_eq_zero.1 h0]
      simp
    · have h1 : lis_spec seq ≠ 0 := by omega
      rcases foldr_max_mem ((seq.sublists.filter fun l =>
          decide (List.Chain' (· < ·) l)).map List.length) with h2 | h2
      · exact absurd h2 h1
      · rcases List.mem_map.1 h2 with ⟨l, hl, hlen⟩
        rcases List.mem_filter.1 hl with ⟨hsub, hchain⟩
        have hsub' := List.mem_sublists.1 hsub
        have hll : l.length = seq.length := by
          have h3 : l.length = lis_spec seq := hlen
          omega
        have : l = seq := hsub'.eq_of_length hll
        subst this
        simpa using hchain
  · intro h
    apply le_antisymm (lis_spec_le_length seq)
    exact le_foldr_max (List.mem_map.2 ⟨seq, List.mem_filter.2
      ⟨List.mem_sublists.2 (List.Sublist.refl seq), by simpa using h⟩, rfl⟩)

/-- C4: `compute_coverage` sets `reordered` to the length of the internal
    positions list minus the length of its longest strictly increasing
    subsequence (the patience-sorting loop computes exactly that length);
    consequently `0 ≤ reordered ≤ len(positions) − 1` whenever positions is
    non-empty, and `reordered = 0` exactly when positions is strictly
    increasing. -/
theorem C4_reordered_is_lis_defect :
    (∀ seq : List Nat, longest_increasing_subsequence_length seq = lis_spec seq) ∧
    (∀ (validations : List StepValidation) (algo_steps : List AlgorithmStep) (anchor : Str),
      (compute_coverage validations algo_steps anchor).reordered
        = (covFold (step_to_idx (flatten_steps algo_steps)) validations).positions.length
          - lis_spec (covFold (step_to_idx (flatten_steps algo_steps)) validations).positions ∧
      ((covFold (step_to_idx (flatten_steps algo_steps)) validations).positions ≠ [] →
        (compute_coverage validations algo_steps anchor).reordered
          ≤ (covFold (step_to_idx (flatten_steps algo_steps)) validations).positions.length
            - 1) ∧
      ((compute_coverage validations algo_steps anchor).reordered = 0 ↔
        List.Chain' (· < ·)
          (covFold (step_to_idx (flatten_steps algo_steps)) validations).positions)) := by
  refine ⟨patience_eq_lis_spec, ?_⟩
  intro validations algo_steps anchor
  have hr : (compute_coverage validations algo_steps anchor).reordered
      = (covFold (step_to_idx (flatten_steps algo_steps)) validations).positions.length
        - longest_increasing_subsequence_length
          (covFold (step_to_idx (flatten_steps algo_steps)) validations).positions := rfl
  rw [hr, patience_eq_lis_spec]
  refine ⟨rfl, ?_, ?_⟩
  · intro hne
    have := lis_spec_pos _ hne
    omega
  · have hle := lis_spec_le_length
      (covFold (step_to_idx (flatten_steps algo_steps)) validations).positions
    rw [← lis_spec_eq_length_iff]
    omega

/-- Witness for C4 with a non-empty positions list (one EXACT validation on
    a one-step tree). -/
theorem C4_reordered_is_lis_defect_witness :
    (covFold (step_to_idx (flatten_steps [AlgorithmStep.mk [1] ['a'] []]))
      [StepValidation.mk (StepComment.mk 0 0 4 [1] ['a'] none)
        MatchResult.EXACT ['a'] ['n']]).positions ≠ [] ∧
    (compute_coverage [StepValidation.mk (StepComment.mk 0 0 4 [1] ['a'] none)
        MatchResult.EXACT ['a'] ['n']] [AlgorithmStep.mk [1] ['a'] []] ['n']).reordered
      ≤ (covFold (step_to_idx (flatten_steps [AlgorithmStep.mk [1] ['a'] []]))
        [StepValidation.mk (StepComment.mk 0 0 4 [1] ['a'] none)
          MatchResult.EXACT ['a'] ['n']]).positions.length - 1 := by
  have hflat : flatten_steps [AlgorithmStep.mk [1] ['a'] []]
      = [AlgorithmStep.mk [1] ['a'] []] := by
    simp [flatten_steps]
  have hne : (covFold (step_to_idx (flatten_steps [AlgorithmStep.mk [1] ['a'] []]))
      [StepValidation.mk (StepComment.mk 0 0 4 [1] ['a'] none)
        MatchResult.EXACT ['a'] ['n']]).positions ≠ [] := by
    rw [hflat]
    decide
  exact ⟨hne, ((C4_reordered_is_lis_defect.2 _ _ ['n']).2.1 hne)⟩

/-! ## Claim C9 — provider failure is silent -/

/-- C9: when the provider raises for a queried spec#anchor (and the query
    cache has no entry), `_query_spec` catches the exception and returns
    nothing, the per-scope validation of that URL emits no StepValidation
    for any step comment in its scope, and a pipeline whose scopes all
    yield nothing emits nothing; the failure is represented by the total
    `Option` return, never by a propagated error. -/
theorem C9_provider_failure_silent :
    (∀ (cache : List (Str × SpecRecord)) (prov : Str → Except Unit SpecRecord)
      (u : UrlMatch) (e : Unit),
      cache.lookup (u.spec ++ '#' :: u.anchor) = none →
      prov (u.spec ++ '#' :: u.anchor) = Except.error e →
      querySpec cache prov u.spec u.anchor = none) ∧
    (∀ (cache : List (Str × SpecRecord)) (prov : Str → Except Unit SpecRecord)
      (algoCache : List (Str × List AlgorithmStep)) (threshold : ℚ)
      (u : UrlMatch) (ss : List StepComment) (e : Unit),
      cache.lookup (u.spec ++ '#' :: u.anchor) = none →
      prov (u.spec ++ '#' :: u.anchor) = Except.error e →
      validateScope prov cache algoCache threshold (u, ss) = []) ∧
    (∀ (prov : Str → Except Unit SpecRecord) (cache : List (Str × SpecRecord))
      (algoCache : List (Str × List AlgorithmStep)) (threshold : ℚ)
      (scopes : List (UrlMatch × List StepComment)),
      (∀ p ∈ scopes, validateScope prov cache algoCache threshold p = []) →
      validate_scopes prov cache algoCache threshold scopes = []) := by
  refine ⟨?_, ?_, ?_⟩
  · intro cache prov u e h1 h2
    simp [querySpec, h1, h2]
  · intro cache prov algoCache threshold u ss e h1 h2
    by_cases hss : ss.isEmpty
    · simp [validateScope, hss]
    · simp [validateScope, hss, querySpec, h1, h2]
  · intro prov cache algoCache threshold scopes h
    induction scopes with
    | nil => rfl
    | cons p rest ih =>
      rw [validate_scopes, List.flatMap_cons, h p (by simp)]
      rw [validate_scopes] at ih
      rw [ih fun q hq => h q (by simp [hq])]
      rfl

/-- Witness for C9 with a provider that always raises. -/
theorem C9_provider_failure_silent_witness :
    ([] : List (Str × SpecRecord)).lookup
      ((UrlMatch.mk 0 0 0 ['h'] ['a'] []).spec ++ '#' ::
        (UrlMatch.mk 0 0 0 ['h'] ['a'] []).anchor) = none ∧
    (fun _ : Str => (Except.error () : Except Unit SpecRecord))
      ((UrlMatch.mk 0 0 0 ['h'] ['a'] []).spec ++ '#' ::
        (UrlMatch.mk 0 0 0 ['h'] ['a'] []).anchor) = Except.error () ∧
    querySpec [] (fun _ => Except.error ()) (UrlMatch.mk 0 0 0 ['h'] ['a'] []).spec
      (UrlMatch.mk 0 0 0 ['h'] ['a'] []).anchor = none ∧
    validateScope (fun _ => Except.error ()) [] [] (17/20)
      (UrlMatch.mk 0 0 0 ['h'] ['a'] [],
        [StepComment.mk 1 0 4 [1] ['a'] none]) = [] := by
  refine ⟨rfl, rfl, ?_, ?_⟩
  · exact C9_provider_failure_silent.1 [] (fun _ => Except.error ())
      (UrlMatch.mk 0 0 0 ['h'] ['a'] []) () rfl rfl
  · exact C9_provider_failure_silent.2.1 [] (fun _ => Except.error ()) [] (17/20)
      (UrlMatch.mk 0 0 0 ['h'] ['a'] []) [StepComment.mk 1 0 4 [1] ['a'] none] () rfl rfl

/-! ## Claim C6 — step-comment acceptance -/

/-- Helper: the continuation loop never moves the resume index backwards. -/
theorem collectCont_ge (fuel : Nat) :
    ∀ (lines : List Str) (j : Nat) (text : Str) (ce : Nat),
      j ≤ (collectCont fuel lines j text ce).1 := by
  induction fuel with
  | zero => intro lines j text ce; exact le_rfl
  | succ f ih =>
    intro lines j text ce
    rw [collectCont]
    by_cases h : j < lines.length
    · rw [dif_pos h]
      by_cases hs : (stepMatchSearch (lines.get ⟨j, h⟩)).isSome
      · rw [if_pos hs]
      · rw [if_neg hs]
        cases hct : contMatch (lines.get ⟨j, h⟩) with
        | none => exact le_rfl
        | some ct =>
          by_cases hce : ct.isEmpty
          · simp [hce]
          · simp only [hce, if_false]
            exact le_trans (by omega) (ih lines (j + 1) _ _)
    · rw [dif_neg h]

/-- Helper: every step comment produced by the scan loop sits at a line at
    or after the loop index, carries the groups of a successful
    `STEP_PATTERN` search on its line, passes the acceptance guard, and its
    text/col_end/end_line come from the continuation loop started on the
    following line. -/
theorem scanStepsGo_spec (fuel : Nat) :
    ∀ (lines : List Str) (i : Nat) (sc : StepComment),
      sc ∈ scanStepsGo fuel lines i →
      sc.line < lines.length ∧ i ≤ sc.line ∧
      ∃ m, stepMatchSearch (lines.getD sc.line []) = some m ∧
        (m.hasPfx || m.hasDot || decide (m.parts.length > 1)) = true ∧
        sc.number = m.parts ∧ sc.col_start = m.start ∧
        ∃ j, collectCont (lines.length + 1) lines (sc.line + 1) m.text
            (lines.getD sc.line []).length = (j, sc.text, sc.col_end) ∧
          sc.end_line = (if sc.line + 1 < j then some (j - 1) else none) := by
  induction fuel with
  | zero => intro lines i sc h; simp [scanStepsGo] at h
  | succ f ih =>
    intro lines i sc hsc
    rw [scanStepsGo] at hsc
    by_cases h : i < lines.length
    · rw [dif_pos h] at hsc
      dsimp only at hsc
      have hgd : lines.getD i [] = lines.get ⟨i, h⟩ := by
        rw [List.getD_eq_getElem lines [] h, List.get_eq_getElem]
      split at hsc
      next m hm =>
        split at hsc
        next hg =>
          rcases List.mem_cons.1 hsc with rfl | htail
          · refine ⟨h, le_rfl, m, by rw [hgd]; exact hm, hg, rfl, rfl, ?_⟩
            refine ⟨(collectCont (lines.length + 1) lines (i + 1) m.text
              (lines.get ⟨i, h⟩).length).1, ?_, rfl⟩
            rw [hgd]
          · obtain ⟨h1, h2, rest⟩ := ih lines _ sc htail
            have := collectCont_ge (lines.length + 1) lines (i + 1) m.text
              (lines.get ⟨i, h⟩).length
            exact ⟨h1, by omega, rest⟩
        next hg =>
          obtain ⟨h1, h2, rest⟩ := ih lines (i + 1) sc hsc
          exact ⟨h1, by omega, rest⟩
      next hm =>
        obtain ⟨h1, h2, rest⟩ := ih lines (i + 1) sc hsc
        exact ⟨h1, by omega, rest⟩
    · rw [dif_neg h] at hsc
      simp at hsc

/-- C6: `scan_steps` accepts a line as a step comment only if the `Step `
    prefix appeared, a trailing dot followed the number, or the number has
    more than one dot-separated part; `"// 42 is the answer"` produces no
    step comments while `"// 5. Let x be y"` produces exactly one with
    number `[5]` and text `"Let x be y"`. -/
theorem C6_scan_steps_acceptance :
    (∀ (text : Str) (sc : StepComment), sc ∈ scan_steps text →
      ∃ m, stepMatchSearch ((pySplitLines text).getD sc.line []) = some m ∧
        sc.number = m.parts ∧
        (m.hasPfx = true ∨ m.hasDot = true ∨ m.parts.length > 1)) ∧
    scan_steps "// 42 is the answer".data = [] ∧
    scan_steps "// 5. Let x be y".data =
      [StepComment.mk 0 0 16 [5] "Let x be y".data none] := by
  refine ⟨?_, by decide, by decide⟩
  intro text sc hsc
  obtain ⟨_, _, m, hm, hg, hnum, _⟩ := scanStepsGo_spec _ _ _ sc hsc
  refine ⟨m, hm, hnum, ?_⟩
  simpa [Bool.or_eq_true, decide_eq_true_eq, or_assoc] using hg

/-- Witness for C6's general clause at a concrete accepted comment. -/
theorem C6_scan_steps_acceptance_witness :
    StepComment.mk 0 0 16 [5] "Let x be y".data none
      ∈ scan_steps "// 5. Let x be y".data ∧
    ∃ m, stepMatchSearch ((pySplitLines "// 5. Let x be y".data).getD
        (StepComment.mk 0 0 16 [5] "Let x be y".data none).line []) = some m ∧
      (StepComment.mk 0 0 16 [5] "Let x be y".data none).number = m.parts ∧
      (m.hasPfx = true ∨ m.hasDot = true ∨ m.parts.length > 1) :=
  ⟨by decide, C6_scan_steps_acceptance.1 "// 5. Let x be y".data
    (StepComment.mk 0 0 16 [5] "Let x be y".data none) (by decide)⟩

/-! ## Claim C7 — continuation merging -/

theorem collectCont_zero (lines : List Str) (j : Nat) (t : Str) (ce : Nat) :
    collectCont 0 lines j t ce = (j, t, ce) := rfl

theorem collectCont_oob (f : Nat) (lines : List Str) (j : Nat) (t : Str) (ce : Nat)
    (h : ¬ j < lines.length) :
    collectCont (f + 1) lines j t ce = (j, t, ce) := by
  rw [collectCont, dif_neg h]

theorem collectCont_step (f : Nat) (lines : List Str) (j : Nat) (t : Str) (ce : Nat)
    (h : j < lines.length) (hs : (stepMatchSearch (lines.get ⟨j, h⟩)).isSome = true) :
    collectCont (f + 1) lines j t ce = (j, t, ce) := by
  rw [collectCont, dif_pos h]
  dsimp only
  rw [if_pos hs]

theorem collectCont_nocont (f : Nat) (lines : List Str) (j : Nat) (t : Str) (ce : Nat)
    (h : j < lines.length) (hs : ¬ (stepMatchSearch (lines.get ⟨j, h⟩)).isSome = true)
    (hct : contMatch (lines.get ⟨j, h⟩) = none) :
    collectCont (f + 1) lines j t ce = (j, t, ce) := by
  rw [collectCont, dif_pos h]
  dsimp only
  rw [if_neg hs, hct]

theorem collectCont_empty (f : Nat) (lines : List Str) (j : Nat) (t : Str) (ce : Nat)
    (h : j < lines.length) (ct : Str)
    (hs : ¬ (stepMatchSearch (lines.get ⟨j, h⟩)).isSome = true)
    (hct : contMatch (lines.get ⟨j, h⟩) = some ct) (hce : ct.isEmpty = true) :
    collectCont (f + 1) lines j t ce = (j, t, ce) := by
  rw [collectCont, dif_pos h]
  dsimp only
  rw [if_neg hs, hct]
  dsimp only
  rw [if_pos hce]

theorem collectCont_rec (f : Nat) (lines : List Str) (j : Nat) (t : Str) (ce : Nat)
    (h : j < lines.length) (ct : Str)
    (hs : ¬ (stepMatchSearch (lines.get ⟨j, h⟩)).isSome = true)
    (hct : contMatch (lines.get ⟨j, h⟩) = some ct) (hce : ¬ ct.isEmpty = true) :
    collectCont (f + 1) lines j t ce
      = collectCont f lines (j + 1) (t ++ ' ' :: ct) (lines.get ⟨j, h⟩).length := by
  rw [collectCont, dif_pos h]
  dsimp only
  rw [if_neg hs, hct]
  dsimp only
  rw [if_neg hce]

theorem joinConts_self (lines : List Str) (j : Nat) : joinConts lines j j = [] := by
  rw [joinConts, Nat.sub_self]
  rfl

theorem joinConts_cons (lines : List Str) (j j2 : Nat) (h : j < j2) :
    joinConts lines j j2
      = (' ' :: (contMatch (lines.getD j [])).getD []) ++ joinConts lines (j + 1) j2 := by
  rw [joinConts, joinConts]
  have hn : j2 - j = (j2 - (j + 1)) + 1 := by omega
  rw [hn, List.range'_succ, List.flatMap_cons]

/-- Helper: the six conjuncts of the continuation-loop characterisation hold
    trivially for an immediately-stopped loop. -/
theorem collectCont_spec_base (lines : List Str) (j0 : Nat) (text0 : Str) (ce0 : Nat)
    (hj0 : j0 ≤ lines.length)
    (hstop : j0 < lines.length →
      ¬(stepMatchSearch (lines.getD j0 []) = none ∧
        ∃ t, contMatch (lines.getD j0 []) = some t ∧ t ≠ [])) :
    j0 ≤ j0 ∧ j0 ≤ lines.length ∧
    (∀ k, j0 ≤ k → k < j0 →
      stepMatchSearch (lines.getD k []) = none ∧
      ∃ t, contMatch (lines.getD k []) = some t ∧ t ≠ []) ∧
    (j0 < lines.length →
      ¬(stepMatchSearch (lines.getD j0 []) = none ∧
        ∃ t, contMatch (lines.getD j0 []) = some t ∧ t ≠ [])) ∧
    text0 = text0 ++ joinConts lines j0 j0 ∧
    ce0 = (if j0 < j0 then (lines.getD (j0 - 1) []).length else ce0) := by
  refine ⟨le_rfl, hj0, ?_, hstop, ?_, ?_⟩
  · intro k hk1 hk2
    omega
  · rw [joinConts_self, List.append_nil]
  · rw [if_neg (lt_irrefl j0)]

/-- Helper: full characterisation of the continuation loop of `scan_steps`:
    with adequate fuel, the loop stops at the first line that matches the step
    pattern, is not comment-only, or has empty comment text; every line before
    the stop index is a comment-only non-step line with non-empty text; the
    accumulated text appends each consumed line's comment text behind a single
    space; `col_end` becomes the last consumed line's length when anything was
    consumed, and stays at its input value otherwise. -/
theorem collectCont_spec (fuel : Nat) :
    ∀ (lines : List Str) (j0 : Nat) (text0 : Str) (ce0 : Nat),
      lines.length ≤ j0 + fuel → j0 ≤ lines.length →
      j0 ≤ (collectCont fuel lines j0 text0 ce0).1 ∧
      (collectCont fuel lines j0 text0 ce0).1 ≤ lines.length ∧
      (∀ k, j0 ≤ k → k < (collectCont fuel lines j0 text0 ce0).1 →
        stepMatchSearch (lines.getD k []) = none ∧
        ∃ t, contMatch (lines.getD k []) = some t ∧ t ≠ []) ∧
      ((collectCont fuel lines j0 text0 ce0).1 < lines.length →
        ¬(stepMatchSearch (lines.getD (collectCont fuel lines j0 text0 ce0).1 []) = none ∧
          ∃ t, contMatch (lines.getD (collectCont fuel lines j0 text0 ce0).1 []) = some t ∧
            t ≠ [])) ∧
      (collectCont fuel lines j0 text0 ce0).2.1
        = text0 ++ joinConts lines j0 (collectCont fuel lines j0 text0 ce0).1 ∧
      (collectCont fuel lines j0 text0 ce0).2.2
        = (if j0 < (collectCont fuel lines j0 text0 ce0).1 then
            (lines.getD ((collectCont fuel lines j0 text0 ce0).1 - 1) []).length
          else ce0) := by
  induction fuel with
  | zero =>
    intro lines j0 text0 ce0 had hj0
    rw [collectCont_zero]
    exact collectCont_spec_base lines j0 text0 ce0 hj0
      (fun hlt => absurd hlt (by omega))
  | succ f ih =>
    intro lines j0 text0 ce0 had hj0
    by_cases h : j0 < lines.length
    · have hgd : lines.getD j0 [] = lines.get ⟨j0, h⟩ := by
        rw [List.getD_eq_getElem lines [] h, List.get_eq_getElem]
      by_cases hs : (stepMatchSearch (lines.get ⟨j0, h⟩)).isSome = true
      · rw [collectCont_step f lines j0 text0 ce0 h hs]
        refine collectCont_spec_base lines j0 text0 ce0 (by omega) ?_
        intro _ hcon
        obtain ⟨hnone, -⟩ := hcon
        rw [hgd] at hnone
        rw [hnone] at hs
        simp at hs
      · cases hct : contMatch (lines.get ⟨j0, h⟩) with
        | none =>
          rw [collectCont_nocont f lines j0 text0 ce0 h hs hct]
          refine collectCont_spec_base lines j0 text0 ce0 (by omega) ?_
          intro _ hcon
          obtain ⟨-, t, hsome, -⟩ := hcon
          rw [hgd, hct] at hsome
          cases hsome
        | some ct =>
          by_cases hce : ct.isEmpty = true
          · rw [collectCont_empty f lines j0 text0 ce0 h ct hs hct hce]
            refine collectCont_spec_base lines j0 text0 ce0 (by omega) ?_
            intro _ hcon
            obtain ⟨-, t, hsome, htne⟩ := hcon
            rw [hgd, hct] at hsome
            obtain rfl := Option.some.inj hsome
            exact htne (List.isEmpty_iff.1 hce)
          · rw [collectCont_rec f lines j0 text0 ce0 h ct hs hct hce]
            obtain ⟨i1, i2, i3, i4, i5, i6⟩ := ih lines (j0 + 1)
              (text0 ++ ' ' :: ct) (lines.get ⟨j0, h⟩).length (by omega) (by omega)
            have hnone : stepMatchSearch (lines.get ⟨j0, h⟩) = none := by
              cases hopt : stepMatchSearch (lines.get ⟨j0, h⟩) with
              | none => rfl
              | some m => rw [hopt] at hs; simp at hs
            refine ⟨by omega, i2, ?_, i4, ?_, ?_⟩
            · intro k hk1 hk2
              by_cases hkj : k = j0
              · subst hkj
                refine ⟨by rw [hgd]; exact hnone, ct, by rw [hgd]; exact hct, ?_⟩
                intro he
                rw [he] at hce
                exact hce rfl
              · exact i3 k (by omega) hk2
            · have hj : joinConts lines j0
                  (collectCont f lines (j0 + 1) (text0 ++ ' ' :: ct)
                    (lines.get ⟨j0, h⟩).length).1
                  = (' ' :: ct) ++ joinConts lines (j0 + 1)
                    (collectCont f lines (j0 + 1) (text0 ++ ' ' :: ct)
                      (lines.get ⟨j0, h⟩).length).1 := by
                rw [joinConts_cons lines j0 _ (by omega), hgd, hct]
                rfl
              rw [i5, hj, List.append_assoc]
            · by_cases hcase : j0 + 1 < (collectCont f lines (j0 + 1)
                  (text0 ++ ' ' :: ct) (lines.get ⟨j0, h⟩).length).1
              · rw [i6, if_pos hcase, if_pos (by omega)]
              · rw [i6, if_neg hcase, if_pos (by omega)]
                have he : (collectCont f lines (j0 + 1) (text0 ++ ' ' :: ct)
                    (lines.get ⟨j0, h⟩).length).1 - 1 = j0 := by omega
                rw [he, hgd]
    · rw [collectCont_oob f lines j0 text0 ce0 h]
      exact collectCont_spec_base lines j0 text0 ce0 (by omega)
        (fun hlt => absurd hlt h)

/-- C7 (counterexample): the claim says the scanner consumes every subsequent
    comment-only line that does not itself match the step pattern. On
    `"// 5. a\n//\n// b"` line 1 (`"//"`) is a comment-only non-step line
    (the continuation pattern matches it, with empty captured text) and
    line 2 (`"// b"`) is another one with text `"b"` — yet the scan consumes
    neither: the single produced step keeps text `"a"`, `col_end = 7` on
    line 0, and `end_line = none`, because the loop stops at the first
    continuation whose captured comment text is empty. -/
theorem C7_continuation_counterexample :
    scan_steps "// 5. a\n//\n// b".data
      = [StepComment.mk 0 0 7 [5] "a".data none] ∧
    (pySplitLines "// 5. a\n//\n// b".data).getD 1 [] = "//".data ∧
    stepMatchSearch "//".data = none ∧
    contMatch "//".data = some [] ∧
    (pySplitLines "// 5. a\n//\n// b".data).getD 2 [] = "// b".data ∧
    stepMatchSearch "// b".data = none ∧
    contMatch "// b".data = some "b".data := by
  refine ⟨by decide, by decide, by decide, by decide, by decide, by decide, by decide⟩

/-- C7 (amended): after `scan_steps` matches a step comment on line
    `sc.line`, it consumes exactly the maximal run of following lines that
    are comment-only lines with NON-EMPTY comment text and do not themselves
    match the step pattern: every consumed line's text is appended behind a
    single space, `col_end` becomes the last consumed line's end (staying at
    the match line's end when nothing was consumed), and `end_line` is the
    last consumed line, left unset when no line was consumed. -/
theorem C7_continuation_merging (text : Str) (sc : StepComment)
    (hsc : sc ∈ scan_steps text) :
    ∃ m j,
      stepMatchSearch ((pySplitLines text).getD sc.line []) = some m ∧
      sc.line + 1 ≤ j ∧ j ≤ (pySplitLines text).length ∧
      (∀ k, sc.line + 1 ≤ k → k < j →
        stepMatchSearch ((pySplitLines text).getD k []) = none ∧
        ∃ t, contMatch ((pySplitLines text).getD k []) = some t ∧ t ≠ []) ∧
      (j < (pySplitLines text).length →
        ¬(stepMatchSearch ((pySplitLines text).getD j []) = none ∧
          ∃ t, contMatch ((pySplitLines text).getD j []) = some t ∧ t ≠ [])) ∧
      sc.text = m.text ++ joinConts (pySplitLines text) (sc.line + 1) j ∧
      sc.col_end = (if sc.line + 1 < j then ((pySplitLines text).getD (j - 1) []).length
        else ((pySplitLines text).getD sc.line []).length) ∧
      sc.end_line = (if sc.line + 1 < j then some (j - 1) else none) := by
  rw [scan_steps] at hsc
  obtain ⟨hlt, -, m, hm, -, -, -, j, hcc, hend⟩ :=
    scanStepsGo_spec ((pySplitLines text).length + 1) (pySplitLines text) 0 sc hsc
  obtain ⟨s1, s2, s3, s4, s5, s6⟩ := collectCont_spec ((pySplitLines text).length + 1)
    (pySplitLines text) (sc.line + 1) m.text (((pySplitLines text).getD sc.line []).length)
    (by omega) (by omega)
  rw [hcc] at s1 s2 s3 s4 s5 s6
  dsimp only at s1 s2 s3 s4 s5 s6
  exact ⟨m, j, hm, s1, s2, s3, s4, s5, s6, hend⟩

/-- C7 witness: on `"// 1. a\n// b"` the theorem applies to the single
    produced step comment, whose text `"a b"` merges the continuation line,
    with `col_end = 4` (end of line 1) and `end_line = some 1`. -/
theorem C7_continuation_merging_witness :
    (StepComment.mk 0 0 4 [1] "a b".data (some 1)) ∈ scan_steps "// 1. a\n// b".data ∧
    (∃ m j,
      stepMatchSearch ((pySplitLines "// 1. a\n// b".data).getD 0 []) = some m ∧
      1 ≤ j ∧ j ≤ (pySplitLines "// 1. a\n// b".data).length ∧
      (∀ k, 1 ≤ k → k < j →
        stepMatchSearch ((pySplitLines "// 1. a\n// b".data).getD k []) = none ∧
        ∃ t, contMatch ((pySplitLines "// 1. a\n// b".data).getD k []) = some t ∧ t ≠ []) ∧
      (j < (pySplitLines "// 1. a\n// b".data).length →
        ¬(stepMatchSearch ((pySplitLines "// 1. a\n// b".data).getD j []) = none ∧
          ∃ t, contMatch ((pySplitLines "// 1. a\n// b".data).getD j []) = some t ∧
            t ≠ [])) ∧
      "a b".data = m.text ++ joinConts (pySplitLines "// 1. a\n// b".data) 1 j ∧
      4 = (if 1 < j then ((pySplitLines "// 1. a\n// b".data).getD (j - 1) []).length
        else ((pySplitLines "// 1. a\n// b".data).getD 0 []).length) ∧
      (some 1 : Option Nat) = (if 1 < j then some (j - 1) else none)) :=
  ⟨by decide, C7_continuation_merging "// 1. a\n// b".data
    (StepComment.mk 0 0 4 [1] "a b".data (some 1)) (by decide)⟩

/-! ## Claim C5 — scope monotonicity -/

theorem bestGo_spec (sLine : Nat) :
    ∀ (scopes : List (UrlMatch × List StepComment)) (i0 : Nat) (best : Option Nat),
      bestGo scopes sLine i0 best
        = (if ((scopes.map Prod.fst).takeWhile fun v => v.line ≤ sLine).length = 0 then best
           else some (i0 + ((scopes.map Prod.fst).takeWhile fun v => v.line ≤ sLine).length - 1)) := by
  intro scopes
  induction scopes with
  | nil =>
    intro i0 best
    simp [bestGo]
  | cons q rest ih =>
    intro i0 best
    obtain ⟨u, ss⟩ := q
    rw [bestGo]
    by_cases h : u.line ≤ sLine
    · rw [if_pos h, ih (i0 + 1) (some i0)]
      have htw : ((((u, ss) :: rest).map Prod.fst).takeWhile fun v => v.line ≤ sLine)
          = u :: ((rest.map Prod.fst).takeWhile fun v => v.line ≤ sLine) := by
        simp [List.takeWhile_cons, h]
      rw [htw]
      by_cases h0 : ((rest.map Prod.fst).takeWhile fun v => v.line ≤ sLine).length = 0
      · rw [if_pos h0, if_neg (by simp)]
        congr 1
        simp only [List.length_cons]
        omega
      · rw [if_neg h0, if_neg (by simp)]
        congr 1
        simp only [List.length_cons]
        omega
    · rw [if_neg h]
      have htw : ((((u, ss) :: rest).map Prod.fst).takeWhile fun v => v.line ≤ sLine)
          = [] := by
        simp [List.takeWhile_cons, h]
      rw [htw]
      simp

theorem appendAt_map_fst (s : StepComment) :
    ∀ (scopes : List (UrlMatch × List StepComment)) (i : Nat),
      (appendAt scopes i s).map Prod.fst = scopes.map Prod.fst := by
  intro scopes
  induction scopes with
  | nil => intro i; rfl
  | cons q rest ih =>
    intro i
    obtain ⟨u, ss⟩ := q
    cases i with
    | zero => simp [appendAt]
    | succ n => simp [appendAt, ih n]

theorem appendAt_mem (s : StepComment) :
    ∀ (scopes : List (UrlMatch × List StepComment)) (i : Nat) (p : UrlMatch × List StepComment),
      p ∈ appendAt scopes i s →
      p ∈ scopes ∨
      ∃ ss0, (p.1, ss0) ∈ scopes ∧ p.2 = ss0 ++ [s] ∧
        p.1 = (scopes.map Prod.fst).getD i p.1 := by
  intro scopes
  induction scopes with
  | nil =>
    intro i p hp
    simp [appendAt] at hp
  | cons q rest ih =>
    intro i p hp
    obtain ⟨u, ss⟩ := q
    cases i with
    | zero =>
      rw [show appendAt ((u, ss) :: rest) 0 s = (u, ss ++ [s]) :: rest from rfl] at hp
      rcases List.mem_cons.1 hp with h1 | h2
      · subst h1
        right
        exact ⟨ss, by simp, rfl, rfl⟩
      · exact Or.inl (List.mem_cons_of_mem _ h2)
    | succ n =>
      rw [show appendAt ((u, ss) :: rest) (n + 1) s = (u, ss) :: appendAt rest n s from rfl] at hp
      rcases List.mem_cons.1 hp with h1 | h2
      · subst h1
        exact Or.inl (by simp)
      · rcases ih n p h2 with h3 | ⟨ss0, h4, h5, h6⟩
        · exact Or.inl (List.mem_cons_of_mem _ h3)
        · right
          exact ⟨ss0, List.mem_cons_of_mem _ h4, h5, by simpa using h6⟩

theorem insertByLine_mem {α : Type} (key : α → Nat) (a x : α) :
    ∀ l : List α, x ∈ insertByLine key a l ↔ x = a ∨ x ∈ l := by
  intro l
  induction l with
  | nil => simp [insertByLine]
  | cons b rest ih =>
    rw [insertByLine]
    by_cases h : key b ≤ key a
    · rw [if_pos h]
      simp only [List.mem_cons, ih]
      tauto
    · rw [if_neg h]
      simp only [List.mem_cons]

theorem insertByLine_sorted {α : Type} (key : α → Nat) (a : α) :
    ∀ l : List α, l.Pairwise (fun x y => key x ≤ key y) →
      (insertByLine key a l).Pairwise (fun x y => key x ≤ key y) := by
  intro l
  induction l with
  | nil =>
    intro _
    simp [insertByLine]
  | cons b rest ih =>
    intro hl
    rw [List.pairwise_cons] at hl
    obtain ⟨hb, hrest⟩ := hl
    rw [insertByLine]
    by_cases h : key b ≤ key a
    · rw [if_pos h]
      rw [List.pairwise_cons]
      refine ⟨?_, ih hrest⟩
      intro y hy
      rcases (insertByLine_mem key a y rest).1 hy with rfl | hy2
      · exact h
      · exact hb y hy2
    · rw [if_neg h]
      rw [List.pairwise_cons]
      refine ⟨?_, List.pairwise_cons.2 ⟨hb, hrest⟩⟩
      intro y hy
      rcases List.mem_cons.1 hy with rfl | hy2
      · omega
      · have := hb y hy2
        omega

theorem pySortByKey_mem {α : Type} (key : α → Nat) (x : α) :
    ∀ (l acc : List α),
      x ∈ l.foldl (fun acc2 y => insertByLine key y acc2) acc ↔ x ∈ acc ∨ x ∈ l := by
  intro l
  induction l with
  | nil =>
    intro acc
    simp
  | cons b rest ih =>
    intro acc
    rw [List.foldl_cons, ih (insertByLine key b acc)]
    rw [insertByLine_mem key b x acc]
    simp only [List.mem_cons]
    tauto

theorem pySortByKey_sorted {α : Type} (key : α → Nat) :
    ∀ (l acc : List α), acc.Pairwise (fun x y => key x ≤ key y) →
      (l.foldl (fun acc2 y => insertByLine key y acc2) acc).Pairwise
        (fun x y => key x ≤ key y) := by
  intro l
  induction l with
  | nil =>
    intro acc h
    simpa using h
  | cons b rest ih =>
    intro acc h
    rw [List.foldl_cons]
    exact ih _ (insertByLine_sorted key b acc h)

theorem mem_takeWhile_pred {α : Type} (p : α → Bool) (x : α) :
    ∀ l : List α, x ∈ l.takeWhile p → p x = true := by
  intro l
  induction l with
  | nil =>
    intro h
    simp [List.takeWhile] at h
  | cons b rest ih =>
    intro h
    by_cases hb : p b = true
    · rw [List.takeWhile_cons_of_pos hb] at h
      rcases List.mem_cons.1 h with rfl | h2
      · exact hb
      · exact ih h2
    · rw [List.takeWhile_cons_of_neg (by simpa using hb)] at h
      simp at h

theorem takeWhile_getD_false {α : Type} (p : α → Bool) (d : α) :
    ∀ l : List α, (l.takeWhile p).length < l.length →
      p (l.getD (l.takeWhile p).length d) = false := by
  intro l
  induction l with
  | nil =>
    intro h
    simp at h
  | cons b rest ih =>
    intro h
    by_cases hb : p b = true
    · rw [List.takeWhile_cons_of_pos hb] at h ⊢
      simp only [List.length_cons, List.getD_cons_succ]
      exact ih (by simpa using h)
    · rw [List.takeWhile_cons_of_neg (by simpa using hb)]
      simp only [List.length_nil, List.getD_cons_zero]
      simpa using hb

theorem takeWhile_getD_eq {α : Type} (p : α → Bool) (d : α) :
    ∀ (l : List α) (i : Nat), i < (l.takeWhile p).length →
      l.getD i d = (l.takeWhile p).getD i d := by
  intro l
  induction l with
  | nil =>
    intro i hi
    simp [List.takeWhile] at hi
  | cons b rest ih =>
    intro i hi
    by_cases hb : p b = true
    · rw [List.takeWhile_cons_of_pos hb] at hi ⊢
      cases i with
      | zero => simp
      | succ n =>
        simp only [List.getD_cons_succ]
        exact ih n (by simpa using hi)
    · rw [List.takeWhile_cons_of_neg (by simpa using hb)] at hi
      simp at hi

/-- Helper: one assignment round of `build_scopes` preserves the scope
    invariant: the URL column stays the sorted URL list, and every stored
    step lies in the scope of the latest URL at or before its line. -/
theorem build_scopes_step (urls : List UrlMatch)
    (scopes : List (UrlMatch × List StepComment)) (s : StepComment)
    (hmap : scopes.map Prod.fst = pySortByKey (fun u => u.line) urls)
    (hgood : ∀ p ∈ scopes, ∀ s' ∈ p.2,
      p.1.line ≤ s'.line ∧ ∀ u' ∈ urls, ¬(p.1.line < u'.line ∧ u'.line ≤ s'.line)) :
    ((match bestGo scopes s.line 0 none with
      | some i => appendAt scopes i s
      | none => scopes).map Prod.fst = pySortByKey (fun u => u.line) urls) ∧
    (∀ p ∈ (match bestGo scopes s.line 0 none with
      | some i => appendAt scopes i s
      | none => scopes), ∀ s' ∈ p.2,
      p.1.line ≤ s'.line ∧ ∀ u' ∈ urls, ¬(p.1.line < u'.line ∧ u'.line ≤ s'.line)) := by
  set su := pySortByKey (fun u => u.line) urls with hsu
  have hsorted : su.Pairwise (fun x y => x.line ≤ y.line) := by
    rw [hsu, pySortByKey]
    exact pySortByKey_sorted (fun u => u.line) urls [] (by simp)
  have hmemsu : ∀ x : UrlMatch, x ∈ su ↔ x ∈ urls := by
    intro x
    rw [hsu, pySortByKey, pySortByKey_mem (fun u => u.line) x urls []]
    simp
  rw [bestGo_spec s.line scopes 0 none, hmap]
  by_cases ht : ((su.takeWhile fun v => v.line ≤ s.line)).length = 0
  · rw [if_pos ht]
    exact ⟨hmap, hgood⟩
  · rw [if_neg ht]
    dsimp only
    have hlen : ((su.takeWhile fun v => v.line ≤ s.line)).length ≤ su.length :=
      takeWhile_len_le _ su
    constructor
    · rw [appendAt_map_fst, hmap]
    · intro p hp s' hs'
      rcases appendAt_mem s scopes _ p hp with hold | ⟨ss0, hss0, hp2, hfst⟩
      · exact hgood p hold s' hs'
      · rw [hmap] at hfst
        rw [hp2] at hs'
        rcases List.mem_append.1 hs' with hs1 | hs2
        · exact hgood (p.1, ss0) hss0 s' hs1
        · have hs'eq : s' = s := by simpa using hs2
          subst hs'eq
          have hidx2 : 0 + ((su.takeWhile fun v => v.line ≤ s'.line)).length - 1
              < su.length := by omega
          have hidx : 0 + ((su.takeWhile fun v => v.line ≤ s'.line)).length - 1
              < ((su.takeWhile fun v => v.line ≤ s'.line)).length := by omega
          have hgetd_get : ∀ (i : Nat) (hi : i < su.length),
              su.getD i p.1 = su.get ⟨i, hi⟩ := by
            intro i hi
            rw [List.getD_eq_getElem su p.1 hi, List.get_eq_getElem]
          have hp1 : p.1 = su.get
              ⟨0 + ((su.takeWhile fun v => v.line ≤ s'.line)).length - 1, hidx2⟩ := by
            conv_lhs => rw [hfst]
            exact hgetd_get _ hidx2
          have hpair : ∀ (i j : Nat) (hi : i < su.length) (hj : j < su.length), i < j →
              (su.get ⟨i, hi⟩).line ≤ (su.get ⟨j, hj⟩).line := by
            intro i j hi hj hij
            have := List.pairwise_iff_getElem.1 hsorted i j hi hj hij
            simpa [List.get_eq_getElem] using this
          constructor
          · -- p.1.line ≤ s'.line: p.1 sits inside the takeWhile prefix
            have hgetd : su.getD
                  (0 + ((su.takeWhile fun v => v.line ≤ s'.line)).length - 1) p.1
                = ((su.takeWhile fun v => v.line ≤ s'.line)).getD
                  (0 + ((su.takeWhile fun v => v.line ≤ s'.line)).length - 1) p.1 :=
              takeWhile_getD_eq _ p.1 su _ hidx
            have hm1 : ((su.takeWhile fun v => v.line ≤ s'.line)).getD
                  (0 + ((su.takeWhile fun v => v.line ≤ s'.line)).length - 1) p.1
                ∈ su.takeWhile fun v => v.line ≤ s'.line := getD_mem _ _ _ hidx
            have hpred := mem_takeWhile_pred _ _ _ hm1
            rw [← hgetd, ← hfst] at hpred
            exact of_decide_eq_true hpred
          · intro u' hu' hcon
            obtain ⟨hlt1, hle2⟩ := hcon
            have hu's : u' ∈ su := (hmemsu u').2 hu'
            obtain ⟨⟨k, hk⟩, hkeq⟩ := List.mem_iff_get.1 hu's
            by_cases hkt : k < ((su.takeWhile fun v => v.line ≤ s'.line)).length
            · -- u' lies in the prefix, so u'.line ≤ p.1.line
              have hline : u'.line ≤ p.1.line := by
                by_cases hke : k = 0 + ((su.takeWhile fun v => v.line ≤ s'.line)).length - 1
                · have heq : u' = p.1 := by
                    rw [← hkeq, hp1]
                    congr 1
                    exact Fin.ext hke
                  rw [heq]
                · have h2 : k < 0 + ((su.takeWhile fun v => v.line ≤ s'.line)).length - 1 := by
                    omega
                  have := hpair k _ hk hidx2 h2
                  rw [hkeq, ← hp1] at this
                  exact this
              omega
            · -- u' lies at or after the stopping point, so s'.line < u'.line
              have ht'len : ((su.takeWhile fun v => v.line ≤ s'.line)).length
                  < su.length := by omega
              have hfail := takeWhile_getD_false
                (fun v : UrlMatch => decide (v.line ≤ s'.line)) p.1 su ht'len
              have hts : ¬ ((su.getD ((su.takeWhile fun v => v.line ≤ s'.line)).length
                  p.1).line ≤ s'.line) := of_decide_eq_false hfail
              have hta : (su.getD ((su.takeWhile fun v => v.line ≤ s'.line)).length
                  p.1).line ≤ u'.line := by
                rw [hgetd_get _ ht'len]
                by_cases hke : ((su.takeWhile fun v => v.line ≤ s'.line)).length = k
                · have heq : su.get ⟨((su.takeWhile fun v => v.line ≤ s'.line)).length,
                      ht'len⟩ = u' := by
                    rw [← hkeq]
                    congr 1
                    exact Fin.ext hke
                  rw [heq]
                · have h2 : ((su.takeWhile fun v => v.line ≤ s'.line)).length < k := by
                    omega
                  have := hpair _ k ht'len hk h2
                  rw [hkeq] at this
                  exact this
              omega

/-- Helper: the step-assignment fold of `build_scopes` keeps the URL column
    fixed and every stored step in the scope of the latest URL at or before
    its line. -/
theorem build_scopes_fold (urls : List UrlMatch) :
    ∀ (sl : List StepComment) (scopes : List (UrlMatch × List StepComment)),
      scopes.map Prod.fst = pySortByKey (fun u => u.line) urls →
      (∀ p ∈ scopes, ∀ s' ∈ p.2,
        p.1.line ≤ s'.line ∧ ∀ u' ∈ urls, ¬(p.1.line < u'.line ∧ u'.line ≤ s'.line)) →
      ((sl.foldl (fun sc s =>
          match bestGo sc s.line 0 none with
          | some i => appendAt sc i s
          | none => sc) scopes).map Prod.fst = pySortByKey (fun u => u.line) urls) ∧
      (∀ p ∈ sl.foldl (fun sc s =>
          match bestGo sc s.line 0 none with
          | some i => appendAt sc i s
          | none => sc) scopes, ∀ s' ∈ p.2,
        p.1.line ≤ s'.line ∧ ∀ u' ∈ urls, ¬(p.1.line < u'.line ∧ u'.line ≤ s'.line)) := by
  intro sl
  induction sl with
  | nil =>
    intro scopes hmap hgood
    exact ⟨hmap, hgood⟩
  | cons s rest ih =>
    intro scopes hmap hgood
    rw [List.foldl_cons]
    obtain ⟨h1, h2⟩ := build_scopes_step urls scopes s hmap hgood
    exact ih _ h1 h2

/-- Helper: every scope pair of `build_scopes` has its URL drawn from the
    input, and every stored step lies at or after the URL's line with no
    other input URL strictly between. -/
theorem build_scopes_good (urls : List UrlMatch) (steps : List StepComment) :
    ∀ p ∈ build_scopes urls steps, p.1 ∈ urls ∧ ∀ s' ∈ p.2,
      p.1.line ≤ s'.line ∧ ∀ u' ∈ urls, ¬(p.1.line < u'.line ∧ u'.line ≤ s'.line) := by
  intro p hp
  rw [build_scopes] at hp
  by_cases he : urls.isEmpty = true
  · rw [if_pos he] at hp
    simp at hp
  · rw [if_neg he] at hp
    dsimp only at hp
    have hmap0 : (((pySortByKey (fun u => u.line) urls).map
        fun u => (u, ([] : List StepComment))).map Prod.fst)
        = pySortByKey (fun u => u.line) urls := by
      rw [List.map_map]
      exact List.map_id _
    have hgood0 : ∀ p2 ∈ ((pySortByKey (fun u => u.line) urls).map
        fun u => (u, ([] : List StepComment))), ∀ s' ∈ p2.2,
        p2.1.line ≤ s'.line ∧ ∀ u' ∈ urls,
          ¬(p2.1.line < u'.line ∧ u'.line ≤ s'.line) := by
      intro p2 hp2 s' hs'
      obtain ⟨u, hu, rfl⟩ := List.mem_map.1 hp2
      simp at hs'
    obtain ⟨hmapf, hg⟩ := build_scopes_fold urls
      (pySortByKey (fun s2 => s2.line) steps) _ hmap0 hgood0
    refine ⟨?_, hg p hp⟩
    have hmf : p.1 ∈ pySortByKey (fun u => u.line) urls := by
      have := List.mem_map_of_mem Prod.fst hp
      rw [hmapf] at this
      exact this
    rw [pySortByKey] at hmf
    have := (pySortByKey_mem (fun u => u.line) p.1 urls []).1 hmf
    simpa using this

/-- C5: `build_scopes` is scope-monotone: every step comment stored in a
    scope pair has its URL drawn from the input URL list, lies at a line at
    or after that URL's line, and no other input URL sits on a line strictly
    between the URL and the step; a step comment lying before every input
    URL is stored in no scope. -/
theorem C5_build_scopes_monotone (urls : List UrlMatch) (steps : List StepComment) :
    (∀ u ss, (u, ss) ∈ build_scopes urls steps → ∀ s ∈ ss,
      u ∈ urls ∧ u.line ≤ s.line ∧
      ∀ u' ∈ urls, ¬(u.line < u'.line ∧ u'.line ≤ s.line)) ∧
    (∀ s : StepComment, (∀ u ∈ urls, s.line < u.line) →
      ∀ p ∈ build_scopes urls steps, s ∉ p.2) := by
  constructor
  · intro u ss hmem s hs
    obtain ⟨hu, hgood⟩ := build_scopes_good urls steps (u, ss) hmem
    obtain ⟨h1, h2⟩ := hgood s hs
    exact ⟨hu, h1, h2⟩
  · intro s hbefore p hp hsp
    obtain ⟨hu, hgood⟩ := build_scopes_good urls steps p hp
    obtain ⟨h1, -⟩ := hgood s hsp
    have h2 := hbefore p.1 hu
    omega

/-- C5 witness: with one URL on line 1 and one step on line 2, the step is
    stored in that URL's scope and the theorem yields the line ordering. -/
theorem C5_build_scopes_monotone_witness :
    ((UrlMatch.mk 1 0 1 "s".data "a".data "u".data,
        [StepComment.mk 2 0 3 [1] "t".data none])
      ∈ build_scopes [UrlMatch.mk 1 0 1 "s".data "a".data "u".data]
          [StepComment.mk 2 0 3 [1] "t".data none]) ∧
    (UrlMatch.mk 1 0 1 "s".data "a".data "u".data).line
      ≤ (StepComment.mk 2 0 3 [1] "t".data none).line :=
  ⟨by decide,
   ((C5_build_scopes_monotone [UrlMatch.mk 1 0 1 "s".data "a".data "u".data]
        [StepComment.mk 2 0 3 [1] "t".data none]).1
      (UrlMatch.mk 1 0 1 "s".data "a".data "u".data)
      [StepComment.mk 2 0 3 [1] "t".data none] (by decide)
      (StepComment.mk 2 0 3 [1] "t".data none) (by decide)).2.1⟩
